import Mathlib

/-!
Verification of the gomerk Merkle-tree library.

The Go source is shallowly embedded: 32-byte node values are length-32 lists
of bytes (`Bytes32`), Go strings are lists of characters (`Str`), fallible
functions return `GoRes` (ok / error / runtime panic).  Keccak-256 comes from
an external library (golang.org/x/crypto/sha3), so it is a parameter `k` of
every definition that hashes: an arbitrary function from byte sequences to
32-byte values.  Loops are embedded either structurally or with an explicit
iteration bound that the loop variant (proved separately) shows sufficient.
-/

set_option maxHeartbeats 1000000

/-- Go strings are modelled as lists of characters. -/
abbrev Str := List Char

/-- A 32-byte value (`type Bytes32 [32]byte`). -/
abbrev Bytes32 := { l : List (Fin 256) // l.length = 32 }

/-- The all-zero `Bytes32`, Go's zero value for the type. -/
def zero32 : Bytes32 := ⟨List.replicate 32 0, by simp⟩

/-- The error values of the library (errors.go), by kind. -/
inductive GErr where
  | emptyTree
  | invalidNodeLength
  | notALeaf
  | leafNotInTree
  | duplicatedIndex
  | indexOutOfBounds
  | invalidFormat
  | invariantV
  | invalidHex
  | abiEncode
  | unsupportedType
  | mismatchedCount
deriving DecidableEq, Repr

/-- Outcome of a Go function: a value, an error value, or a runtime panic. -/
inductive GoRes (α : Type) where
  | ok (a : α)
  | err (e : GErr)
  | panicked
deriving DecidableEq, Repr

/-! ## Hex encoding and decoding (bytes32.go, encoding/hex) -/

/-- The lowercase hex digit table `"0123456789abcdef"` used by
`hex.EncodeToString`, as a function of the digit value. -/
def hexDigit (d : Fin 16) : Char :=
  if d.val < 10 then Char.ofNat (48 + d.val) else Char.ofNat (87 + d.val)

/-- Hex-encode a byte sequence, two lowercase digits per byte. -/
def encBytes : List (Fin 256) → List Char
  | [] => []
  | b :: r =>
    hexDigit ⟨b.val / 16, by have := b.isLt; omega⟩ ::
    hexDigit ⟨b.val % 16, by have := b.isLt; omega⟩ :: encBytes r

/-- `Bytes32.Hex()`: `"0x"` followed by 64 lowercase hex digits. -/
def hex (b : Bytes32) : Str := '0' :: 'x' :: encBytes b.val

/-- The value of one hex digit character (`0-9`, `a-f`, `A-F`), as in
`encoding/hex.fromHexChar`; `none` for any other character. -/
def hexVal (c : Char) : Option (Fin 16) :=
  if h : 48 ≤ c.toNat ∧ c.toNat ≤ 57 then some ⟨c.toNat - 48, by omega⟩
  else if h : 97 ≤ c.toNat ∧ c.toNat ≤ 102 then some ⟨c.toNat - 87, by omega⟩
  else if h : 65 ≤ c.toNat ∧ c.toNat ≤ 70 then some ⟨c.toNat - 55, by omega⟩
  else none

/-- `hex.DecodeString`: decode pairs of hex digits; fails on a bad digit or
an odd number of characters. -/
def decodePairs : List Char → Option (List (Fin 256))
  | [] => some []
  | [_] => none
  | c1 :: c2 :: r =>
    match hexVal c1, hexVal c2, decodePairs r with
    | some d1, some d2, some rest =>
        some (⟨16 * d1.val + d2.val, by have := d1.isLt; have := d2.isLt; omega⟩ :: rest)
    | _, _, _ => none

/-- `strings.TrimPrefix(s, "0x")`. -/
def trim0x : Str → Str
  | '0' :: 'x' :: r => r
  | s => s

/-- `HexToBytes32`: trim a `0x` prefix, hex-decode, then require 32 bytes.
A decode failure is `ErrInvalidHex`; a wrong length is `ErrInvalidNodeLength`. -/
def hexToBytes32 (s : Str) : GoRes Bytes32 :=
  match decodePairs (trim0x s) with
  | none => .err .invalidHex
  | some data =>
    if h : data.length = 32 then .ok ⟨data, h⟩ else .err .invalidNodeLength

/-- A `b, _ := HexToBytes32(s)` read that ignores the error: the parsed value,
or Go's zero value on failure. -/
def parseOrZero (s : Str) : Bytes32 :=
  match hexToBytes32 s with
  | .ok b => b
  | _ => zero32

/-- `isValidNode`: the string parses as a 32-byte value. -/
def isValidNode (s : Str) : Bool :=
  match hexToBytes32 s with
  | .ok _ => true
  | _ => false

/-! ## Byte comparison and the commutative pair hash (bytes32.go, hashes.go) -/

/-- `bytes.Compare`: lexicographic three-way comparison. -/
def bytesCompare : List (Fin 256) → List (Fin 256) → Int
  | [], [] => 0
  | [], _ :: _ => -1
  | _ :: _, [] => 1
  | a :: as, b :: bs =>
    if a.val < b.val then -1 else if b.val < a.val then 1 else bytesCompare as bs

/-- `Bytes32.Less`. -/
def b32Less (a b : Bytes32) : Bool := bytesCompare a.val b.val < 0

/-- `ConcatSorted`: concatenate the two values in ascending order. -/
def concatSorted (a b : Bytes32) : List (Fin 256) :=
  if b32Less a b then a.val ++ b.val else b.val ++ a.val

/-- `HashNode`: Keccak-256 of the sorted concatenation of two nodes. -/
def hashNode (k : List (Fin 256) → Bytes32) (a b : Bytes32) : Bytes32 :=
  k (concatSorted a b)

/-- `HashLeaf`: double Keccak-256 of the input. -/
def hashLeaf (k : List (Fin 256) → Bytes32) (data : List (Fin 256)) : Bytes32 :=
  k (k data).val

/-! ## Heap-index arithmetic (core.go) -/

def leftChild (i : Nat) : Nat := 2 * i + 1
def rightChild (i : Nat) : Nat := 2 * i + 2
/-- `parent(i) = (i-1)/2`; at `i = 0` both Go (`-1/2 = 0`) and `Nat`
subtraction give `0`. -/
def parent (i : Nat) : Nat := (i - 1) / 2
/-- `sibling(i) = ((i+1) XOR 1) - 1`. -/
def sibling (i : Nat) : Nat := ((i + 1) ^^^ 1) - 1

/-- `isTreeNode`: indices are natural numbers here, so only the upper bound
remains of Go's `i >= 0 && i < n`. -/
def isTreeNode (n i : Nat) : Bool := i < n
def isInternalNode (n i : Nat) : Bool := isTreeNode n (leftChild i)
def isLeafNode (n i : Nat) : Bool := isTreeNode n i && !isInternalNode n i

/-- `checkLeaf`: `none` when the index is a leaf of an `n`-node tree,
otherwise the error the code returns. -/
def checkLeaf (n i : Nat) : Option GErr :=
  if !isTreeNode n i then some .indexOutOfBounds
  else if !isLeafNode n i then some .notALeaf
  else none

/-! ## Tree construction (core.go `MakeTree`) -/

/-- A sequence of array writes `a[key] = val`, applied left to right, on an
array modelled as a function from indices. -/
def updSeq {α : Type} : List (Nat × α) → (Nat → α) → (Nat → α)
  | [], a => a
  | (key, val) :: r, a => updSeq r (Function.update a key val)

/-- The internal-node fill loop of `MakeTree`: `tree[i] = HashNode(tree[2i+1],
tree[2i+2]).Hex()` for `i` from the start index down to `0`. -/
def fillFrom (k : List (Fin 256) → Bytes32) (a : Nat → Str) : Nat → (Nat → Str)
  | 0 =>
    Function.update a 0
      (hex (hashNode k (parseOrZero (a (leftChild 0))) (parseOrZero (a (rightChild 0)))))
  | i + 1 =>
    fillFrom k
      (Function.update a (i + 1)
        (hex (hashNode k (parseOrZero (a (leftChild (i + 1))))
          (parseOrZero (a (rightChild (i + 1))))))) i

/-- `MakeTree`: place leaf `i` at position `n-1-i` (`n = 2·len-1`), then fill
internal nodes from `n-1-len` down to `0`.  The fill loop body runs only when
`len ≥ 2` (its Go start index `n-1-len = len-2` is negative for one leaf). -/
def makeTree (k : List (Fin 256) → Bytes32) (leaves : List Bytes32) : GoRes (List Str) :=
  if leaves.length = 0 then .err .emptyTree
  else
    let n := 2 * leaves.length - 1
    let a0 : Nat → Str := fun _ => []
    let a1 := updSeq (leaves.enum.map (fun p => (n - 1 - p.1, hex p.2))) a0
    let a2 := if leaves.length ≥ 2 then fillFrom k a1 (leaves.length - 2) else a1
    .ok ((List.range n).map a2)

/-! ## Single proofs (core.go `GetProof`, `ProcessProof`) -/

/-- The `GetProof` loop: walk from a node to the root, collecting the sibling
at each step; panics if a sibling index is outside the array. -/
def getProofLoop (T : List Str) (i : Nat) : GoRes (List Str) :=
  if i > 0 then
    if hs : sibling i < T.length then
      match getProofLoop T (parent i) with
      | .ok rest => .ok (T.get ⟨sibling i, hs⟩ :: rest)
      | r => r
    else .panicked
  else .ok []
termination_by i
decreasing_by simp [parent]; omega

/-- `GetProof`: require a leaf index, then collect the sibling path. -/
def getProof (T : List Str) (index : Nat) : GoRes (List Str) :=
  match checkLeaf T.length index with
  | some e => .err e
  | none => getProofLoop T index

/-- The `ProcessProof` fold: `current = HashNode(current, sibling)` for each
proof entry, failing on the entry's parse error. -/
def ppAux (k : List (Fin 256) → Bytes32) (current : Bytes32) : List Str → GoRes Str
  | [] => .ok (hex current)
  | sib :: r =>
    match hexToBytes32 sib with
    | .ok s => ppAux k (hashNode k current s) r
    | .err e => .err e
    | .panicked => .panicked

/-- `ProcessProof`. -/
def processProof (k : List (Fin 256) → Bytes32) (leaf : Bytes32) (proof : List Str) : GoRes Str :=
  ppAux k leaf proof

/-! ## Multi-proofs (core.go `GetMultiProof`, `ProcessMultiProof`) -/

/-- `MultiProof` (leaves, proof, proofFlags). -/
structure MultiProof where
  Leaves : List Str
  Proof : List Str
  ProofFlags : List Bool
deriving DecidableEq, Repr

/-- The loop of `slices.BinarySearchFunc` with `cmp(a, b) = b - a`:
`i, j := 0, n`; while `i < j`, probe `m = (i+j)/2` and move `i` past `m` when
`cmp(x[m], t) = t - x[m] < 0`, else bring `j` down to `m`.  `j - i` strictly
decreases, so `l.length + 1` iterations always complete the search. -/
def bsLoopF (l : List Nat) (t : Nat) : Nat → Nat → Nat → Nat
  | 0, i, _ => i
  | fuel + 1, i, j =>
    if i < j then
      let m := (i + j) / 2
      if (t : Int) - (l.getD m 0 : Int) < 0 then bsLoopF l t fuel (m + 1) j
      else bsLoopF l t fuel i m
    else i

/-- The position returned by `slices.BinarySearchFunc(l, t, func(a,b) int
{ return b - a })`. -/
def bsPos (l : List Nat) (t : Nat) : Nat := bsLoopF l t (l.length + 1) 0 l.length

/-- `slices.Insert(l, n, a)` for `n ≤ len(l)`. -/
def insertAt {α : Type} (n : Nat) (a : α) : List α → List α
  | [] => [a]
  | x :: xs =>
    match n with
    | 0 => a :: x :: xs
    | n + 1 => x :: insertAt n a xs

/-- One insertion step of a descending sort (the comparator `b - a` of
`slices.SortFunc` orders larger elements first). -/
def insDesc (x : Nat) : List Nat → List Nat
  | [] => [x]
  | y :: r => if y ≤ x then x :: y :: r else y :: insDesc x r

/-- `slices.SortFunc(l, func(a, b) int { return b - a })`: sort descending. -/
def sortDesc (l : List Nat) : List Nat := l.foldr insDesc []

/-- The duplicate scan of `GetMultiProof`: walk the list keeping the set of
indices already seen, reporting whether any repeats. -/
def hasDupAux (seen : List Nat) : List Nat → Bool
  | [] => false
  | x :: r => seen.contains x || hasDupAux (x :: seen) r

/-- Outcome of the multi-proof generation loop: the emitted flags, the emitted
proof entries, and the final work stack — or a panic (sibling index outside
the tree array). -/
inductive GenRes where
  | oops
  | out (flags : List Bool) (prf : List Str) (fin : List Nat)
deriving DecidableEq, Repr

/-- The work loop of `GetMultiProof`, with an explicit iteration bound
(`none` when the bound runs out; the stack sum strictly decreases each
iteration, so the bound chosen by `getMultiProof` always suffices).
While the head `j` of the stack is positive: pop it; if the new head is
`sibling(j)` emit flag `true` and pop it too, else emit flag `false` and
emit `tree[sibling(j)]` as a proof entry; then insert `parent(j)` at the
position `slices.BinarySearchFunc` finds. -/
def genLoopAux (T : List Str) : Nat → List Nat → Option GenRes
  | 0, _ => none
  | fuel + 1, stack =>
    match stack with
    | [] => some (.out [] [] [])
    | j :: rest =>
      if j = 0 then some (.out [] [] (j :: rest))
      else
        let s := sibling j
        let p := parent j
        if rest.head? = some s then
          match genLoopAux T fuel (insertAt (bsPos rest.tail p) p rest.tail) with
          | some (.out flags prf fin) => some (.out (true :: flags) prf fin)
          | r => r
        else
          if hs : s < T.length then
            match genLoopAux T fuel (insertAt (bsPos rest p) p rest) with
            | some (.out flags prf fin) =>
              some (.out (false :: flags) (T.get ⟨s, hs⟩ :: prf) fin)
            | r => r
          else some .oops

/-- `GetMultiProof`: validate every index as a leaf, sort descending, reject
duplicates, run the work loop, and append `tree[0]` to the proof when the
final stack is not a single element.  Leaves are the tree entries at the
sorted indices. -/
def getMultiProof (T : List Str) (indices : List Nat) : GoRes MultiProof :=
  match indices.findSome? (fun i => checkLeaf T.length i) with
  | some e => .err e
  | none =>
    let sorted := sortDesc indices
    if hasDupAux [] sorted then .err .duplicatedIndex
    else
      match genLoopAux T (sorted.sum + 1) sorted with
      | some (.out flags prf fin) =>
        if fin.length ≠ 1 then
          if h0 : 0 < T.length then
            .ok ⟨sorted.map (fun idx => T.getD idx []), prf ++ [T.get ⟨0, h0⟩], flags⟩
          else .panicked
        else .ok ⟨sorted.map (fun idx => T.getD idx []), prf, flags⟩
      | _ => .panicked

/-- Parse the `leaves` of a multi-proof in order, stopping at the first
parse error. -/
def parseLeaves : List Str → GoRes (List Bytes32)
  | [] => .ok []
  | s :: r =>
    match hexToBytes32 s with
    | .ok b =>
      match parseLeaves r with
      | .ok rest => .ok (b :: rest)
      | e => e
    | .err e => .err e
    | .panicked => .panicked

/-- The flag loop of `ProcessMultiProof`: the reconstruction queue pops from
the head and appends the pair hash at the tail; flag `true` takes the second
operand from the queue, flag `false` from the next unread proof entry.
Returns the final queue and the number of proof entries consumed. -/
def processFlags (k : List (Fin 256) → Bytes32) (proof : List Str) :
    List Bool → Nat → List Bytes32 → GoRes (List Bytes32 × Nat)
  | [], pi, stack => .ok (stack, pi)
  | flag :: fr, pi, stack =>
    match stack with
    | [] => .err .invariantV
    | a :: s1 =>
      if flag then
        match s1 with
        | [] => .err .invariantV
        | b :: s2 => processFlags k proof fr pi (s2 ++ [hashNode k a b])
      else
        if h : pi < proof.length then
          match hexToBytes32 (proof.get ⟨pi, h⟩) with
          | .ok b => processFlags k proof fr (pi + 1) (s1 ++ [hashNode k a b])
          | .err e => .err e
          | .panicked => .panicked
        else .err .invariantV

/-- `ProcessMultiProof`: check the structural invariant, parse the leaves,
run the flag loop; a single remaining queue element is the root, otherwise a
single unread proof entry is returned verbatim, otherwise `ErrInvariant`. -/
def processMultiProof (k : List (Fin 256) → Bytes32) (mp : MultiProof) : GoRes Str :=
  if mp.Leaves.length + mp.Proof.length ≠ mp.ProofFlags.length + 1 then .err .invariantV
  else
    match parseLeaves mp.Leaves with
    | .ok stack0 =>
      match processFlags k mp.Proof mp.ProofFlags 0 stack0 with
      | .ok (stack, pi) =>
        match stack with
        | [x] => .ok (hex x)
        | _ =>
          if h : pi < mp.Proof.length then .ok (mp.Proof.get ⟨pi, h⟩)
          else .err .invariantV
      | .err e => .err e
      | .panicked => .panicked
    | .err e => .err e
    | .panicked => .panicked

/-- `IsValidTree`: non-empty, every entry parses, every node with a right
child equals the pair hash of its children, and no node has only a left
child. -/
def isValidTree (k : List (Fin 256) → Bytes32) (tree : List Str) : Bool :=
  !(tree.length = 0) &&
  (List.range tree.length).all (fun i =>
    isValidNode (tree.getD i []) &&
    (if rightChild i ≥ tree.length then !(leftChild i < tree.length)
     else decide (parseOrZero (tree.getD i []) =
       hashNode k (parseOrZero (tree.getD (leftChild i) []))
         (parseOrZero (tree.getD (rightChild i) [])))))

/-! ## Simple tree facade (simple.go) -/

/-- `SimpleValue`: an original 32-byte value (as hex) and its tree index. -/
structure SimpleValue where
  value : Str
  treeIndex : Nat
deriving DecidableEq, Repr

/-- `SimpleTreeData`: the serialization format of a simple tree. -/
structure SimpleTreeData where
  format : Str
  tree : List Str
  values : List SimpleValue
deriving DecidableEq, Repr

/-- `SimpleMerkleTree`. -/
structure SimpleMerkleTree where
  tree : List Str
  values : List SimpleValue
deriving DecidableEq, Repr

/-- The `hashed` triples the facade constructors build: original value,
leaf hash, original position. -/
structure SItem (α : Type) where
  value : α
  hash : Bytes32
  index : Nat

/-- One insertion step of the facade sort `slices.SortFunc(items, func(a, b)
hashed int { return a.hash.Compare(b.hash) })`: order ascending by hash. -/
def insByHash {α : Type} (x : SItem α) : List (SItem α) → List (SItem α)
  | [] => [x]
  | y :: r => if bytesCompare x.hash.val y.hash.val ≤ 0 then x :: y :: r else y :: insByHash x r

/-- Sort items ascending by leaf hash. -/
def sortByHash {α : Type} (l : List (SItem α)) : List (SItem α) := l.foldr insByHash []

/-- `NewSimpleMerkleTree`: hash each value with `HashLeaf`, optionally sort by
hash, build the core tree, and scatter `{value.Hex(), len(tree)-1-i}` into the
slot of each item's original position. -/
def newSimpleMerkleTree (k : List (Fin 256) → Bytes32) (values : List Bytes32)
    (sortLeaves : Bool) : GoRes SimpleMerkleTree :=
  let items0 := values.enum.map (fun p => SItem.mk p.2 (hashLeaf k p.2.val) p.1)
  let items := if sortLeaves then sortByHash items0 else items0
  match makeTree k (items.map (·.hash)) with
  | .ok tree =>
    .ok ⟨tree,
      (List.range items.length).map
        (updSeq
          (items.enum.map
            (fun q => (q.2.index, SimpleValue.mk (hex q.2.value) (tree.length - 1 - q.1))))
          (fun _ => ⟨[], 0⟩))⟩
  | .err e => .err e
  | .panicked => .panicked

/-- The loop of `SimpleMerkleTree.Validate`: parse each stored value, read
`tree[v.TreeIndex]` (a panic when the index is outside the array), and compare
with the re-derived leaf hash. -/
def simpleValidateLoop (k : List (Fin 256) → Bytes32) (tree : List Str) :
    List SimpleValue → GoRes Unit
  | [] => .ok ()
  | v :: r =>
    match hexToBytes32 v.value with
    | .ok leaf =>
      if h : v.treeIndex < tree.length then
        if tree.get ⟨v.treeIndex, h⟩ = hex (hashLeaf k leaf.val) then
          simpleValidateLoop k tree r
        else .err .invariantV
      else .panicked
    | .err e => .err e
    | .panicked => .panicked

/-- `SimpleMerkleTree.Validate`. -/
def simpleValidate (k : List (Fin 256) → Bytes32) (t : SimpleMerkleTree) : GoRes Unit :=
  match simpleValidateLoop k t.tree t.values with
  | .ok _ => if isValidTree k t.tree then .ok () else .err .invariantV
  | r => r

/-- `LoadSimpleMerkleTree`: require the `"simple-v1"` tag, then validate. -/
def loadSimpleMerkleTree (k : List (Fin 256) → Bytes32) (d : SimpleTreeData) :
    GoRes SimpleMerkleTree :=
  if d.format ≠ "simple-v1".toList then .err .invalidFormat
  else
    match simpleValidate k ⟨d.tree, d.values⟩ with
    | .ok _ => .ok ⟨d.tree, d.values⟩
    | .err e => .err e
    | .panicked => .panicked

/-- `SimpleMerkleTree.Dump`. -/
def dumpSimple (t : SimpleMerkleTree) : SimpleTreeData :=
  ⟨"simple-v1".toList, t.tree, t.values⟩

/-- `SimpleMerkleTree.Root` (`t.tree[0]`; constructed and validated trees are
never empty, so the Go indexing cannot panic there). -/
def simpleRoot (t : SimpleMerkleTree) : Str := t.tree.getD 0 []

/-- `SimpleMerkleTree.Len`. -/
def simpleLen (t : SimpleMerkleTree) : Nat := t.values.length

/-- `SimpleMerkleTree.GetMultiProofByIndices`: bounds-check the value indices,
translate them to tree indices, run the core generator, and replace the
returned leaves with the original (pre-hash) values, in the caller's order. -/
def simpleGetMultiProofByIndices (t : SimpleMerkleTree) (indices : List Nat) :
    GoRes MultiProof :=
  if indices.any (fun i => decide (i ≥ t.values.length)) then .err .indexOutOfBounds
  else
    let treeIndices := indices.map (fun i => (t.values.getD i ⟨[], 0⟩).treeIndex)
    match getMultiProof t.tree treeIndices with
    | .ok mp =>
      .ok ⟨indices.map (fun i => (t.values.getD i ⟨[], 0⟩).value), mp.Proof, mp.ProofFlags⟩
    | .err e => .err e
    | .panicked => .panicked

/-! ## ABI encoding (standard.go) -/

/-- The dynamic values (`any`) the ABI encoder accepts.  Go's `int` and
`int64` are both arbitrary-precision here; `float64` record values are not
modelled (floating point). -/
inductive GoVal where
  | goStr (s : Str)
  | goInt (n : Int)
  | goInt64 (n : Int)
  | goUint64 (n : Nat)
  | goBigInt (n : Int)
  | goBool (b : Bool)
  | goBytes (b : List (Fin 256))
deriving DecidableEq, Repr

/-- Digit accumulation of `big.Int.SetString` for a fixed base (10 or 16). -/
def parseDigitsAux (base : Nat) (acc : Nat) : List Char → Option Nat
  | [] => some acc
  | c :: r =>
    match hexVal c with
    | some d => if d.val < base then parseDigitsAux base (acc * base + d.val) r else none
    | none => none

/-- A non-empty digit string in the given base. -/
def parseDigits (base : Nat) : List Char → Option Nat
  | [] => none
  | s => parseDigitsAux base 0 s

/-- `big.Int.SetString` for base 10 or 16: an optional sign, then digits. -/
def setStringInt (s : Str) (base : Nat) : Option Int :=
  match s with
  | '-' :: r => (parseDigits base r).map (fun n => -(n : Int))
  | '+' :: r => (parseDigits base r).map (fun n => (n : Int))
  | r => (parseDigits base r).map (fun n => (n : Int))

/-- `toBigInt`: accept the numeric kinds and decimal/hex strings. -/
def toBigInt : GoVal → GoRes Int
  | .goInt n => .ok n
  | .goInt64 n => .ok n
  | .goUint64 n => .ok n
  | .goBigInt n => .ok n
  | .goStr v =>
    let s := trim0x v
    let base := if v.take 2 = ['0', 'x'] then 16 else 10
    match setStringInt s base with
    | some n => .ok n
    | none => .err .abiEncode
  | _ => .err .abiEncode

/-- `big.Int.Bytes`: minimal big-endian bytes of the absolute value
(empty for zero). -/
def natBytes (n : Nat) : List (Fin 256) :=
  if h : n = 0 then [] else natBytes (n / 256) ++ [⟨n % 256, by omega⟩]
termination_by n
decreasing_by exact Nat.div_lt_self (by omega) (by omega)

/-- `encodeAddress`: a hex string of exactly 20 bytes, left-padded to 32. -/
def encodeAddress : GoVal → GoRes (List (Fin 256))
  | .goStr s =>
    match decodePairs (trim0x s) with
    | some data =>
      if data.length = 20 then .ok (List.replicate 12 0 ++ data) else .err .abiEncode
    | none => .err .abiEncode
  | _ => .err .abiEncode

/-- `encodeBytes32`. -/
def encodeBytes32 : GoVal → GoRes (List (Fin 256))
  | .goStr s =>
    match hexToBytes32 s with
    | .ok b => .ok b.val
    | .err e => .err e
    | .panicked => .panicked
  | .goBytes v => if v.length = 32 then .ok v else .err .invalidNodeLength
  | _ => .err .abiEncode

/-- `encodeUint`: non-negative, at most 32 big-endian bytes, left-padded. -/
def encodeUint (val : GoVal) : GoRes (List (Fin 256)) :=
  match toBigInt val with
  | .ok n =>
    if n < 0 then .err .abiEncode
    else
      let b := natBytes n.toNat
      if b.length > 32 then .err .abiEncode
      else .ok (List.replicate (32 - b.length) 0 ++ b)
  | .err e => .err e
  | .panicked => .panicked

/-- `encodeInt`: two's complement modulo `2^256`.  The Go code copies the
magnitude bytes into `out[32-len:]` without a length check, so a magnitude
longer than 32 bytes is a slice-bounds panic. -/
def encodeInt (val : GoVal) : GoRes (List (Fin 256)) :=
  match toBigInt val with
  | .ok n =>
    if 0 ≤ n then
      let b := natBytes n.toNat
      if b.length > 32 then .panicked
      else .ok (List.replicate (32 - b.length) 0 ++ b)
    else
      let b := natBytes (n + 2 ^ 256).natAbs
      if b.length > 32 then .panicked
      else .ok (List.replicate (32 - b.length) 255 ++ b)
  | .err e => .err e
  | .panicked => .panicked

/-- UTF-8 bytes of one character (Go's `[]byte(string)`); code points are
always below `0x110000`, so the final catch-all is unreachable. -/
def charUtf8 (c : Char) : List (Fin 256) :=
  let n := c.toNat
  if h : n < 0x80 then [⟨n, by omega⟩]
  else if h : n < 0x800 then
    [⟨0xC0 + n / 64, by omega⟩, ⟨0x80 + n % 64, by omega⟩]
  else if h : n < 0x10000 then
    [⟨0xE0 + n / 4096, by omega⟩, ⟨0x80 + (n / 64) % 64, by omega⟩, ⟨0x80 + n % 64, by omega⟩]
  else if h : n < 0x110000 then
    [⟨0xF0 + n / 262144, by omega⟩, ⟨0x80 + (n / 4096) % 64, by omega⟩,
     ⟨0x80 + (n / 64) % 64, by omega⟩, ⟨0x80 + n % 64, by omega⟩]
  else []

/-- `encodeBytes`: keccak of the raw or hex-decoded bytes. -/
def encodeBytes (k : List (Fin 256) → Bytes32) : GoVal → GoRes (List (Fin 256))
  | .goStr s =>
    match decodePairs (trim0x s) with
    | some data => .ok (k data).val
    | none => .err .abiEncode
  | .goBytes v => .ok (k v).val
  | _ => .err .abiEncode

/-- `encodeValue`: dispatch on the type tag, in source order. -/
def encodeValue (k : List (Fin 256) → Bytes32) (typ : Str) (val : GoVal) :
    GoRes (List (Fin 256)) :=
  if typ = "address".toList then encodeAddress val
  else if typ = "bytes32".toList then encodeBytes32 val
  else if ("uint".toList).isPrefixOf typ then encodeUint val
  else if ("int".toList).isPrefixOf typ then encodeInt val
  else if typ = "bool".toList then
    match val with
    | .goBool b => .ok (List.replicate 31 0 ++ [if b then 1 else 0])
    | _ => .err .abiEncode
  else if typ = "string".toList then
    match val with
    | .goStr s => .ok (k (s.flatMap charUtf8)).val
    | _ => .err .abiEncode
  else if typ = "bytes".toList then encodeBytes k val
  else .err .unsupportedType

/-- The concatenation loop of `encodeAndHash` over the (type, value) pairs. -/
def encodeAll (k : List (Fin 256) → Bytes32) : List (Str × GoVal) → GoRes (List (Fin 256))
  | [] => .ok []
  | (t, v) :: r =>
    match encodeValue k t v with
    | .ok b =>
      match encodeAll k r with
      | .ok rest => .ok (b ++ rest)
      | e => e
    | .err e => .err e
    | .panicked => .panicked

/-- `encodeAndHash`: equal schema and record lengths, concatenated field
encodings, double-hashed. -/
def encodeAndHash (k : List (Fin 256) → Bytes32) (types : List Str) (values : List GoVal) :
    GoRes Bytes32 :=
  if types.length ≠ values.length then .err .mismatchedCount
  else
    match encodeAll k (types.zip values) with
    | .ok buf => .ok (hashLeaf k buf)
    | .err e => .err e
    | .panicked => .panicked

/-! ## Standard tree facade (standard.go) -/

/-- `StandardValue`: a record and its tree index. -/
structure StandardValue where
  value : List GoVal
  treeIndex : Nat
deriving DecidableEq, Repr

/-- `StandardTreeData`. -/
structure StandardTreeData where
  format : Str
  leafEncoding : List Str
  tree : List Str
  values : List StandardValue
deriving DecidableEq, Repr

/-- `StandardMerkleTree`. -/
structure StandardMerkleTree where
  tree : List Str
  values : List StandardValue
  leafEncoding : List Str
deriving DecidableEq, Repr

/-- The hashing loop of `NewStandardMerkleTree` over the enumerated records,
stopping at the first encoding error. -/
def hashAllStd (k : List (Fin 256) → Bytes32) (enc : List Str) :
    List (Nat × List GoVal) → GoRes (List (SItem (List GoVal)))
  | [] => .ok []
  | (i, v) :: r =>
    match encodeAndHash k enc v with
    | .ok h =>
      match hashAllStd k enc r with
      | .ok rest => .ok (⟨v, h, i⟩ :: rest)
      | .err e => .err e
      | .panicked => .panicked
    | .err e => .err e
    | .panicked => .panicked

/-- `NewStandardMerkleTree`: hash each record with `encodeAndHash`, optionally
sort by hash, build the core tree, scatter the records back to their original
positions with their tree indices. -/
def newStandardMerkleTree (k : List (Fin 256) → Bytes32) (values : List (List GoVal))
    (leafEncoding : List Str) (sortLeaves : Bool) : GoRes StandardMerkleTree :=
  match hashAllStd k leafEncoding values.enum with
  | .ok items0 =>
    let items := if sortLeaves then sortByHash items0 else items0
    match makeTree k (items.map (·.hash)) with
    | .ok tree =>
      .ok ⟨tree,
        (List.range items.length).map
          (updSeq
            (items.enum.map
              (fun q => (q.2.index, StandardValue.mk q.2.value (tree.length - 1 - q.1))))
            (fun _ => ⟨[], 0⟩)),
        leafEncoding⟩
    | .err e => .err e
    | .panicked => .panicked
  | .err e => .err e
  | .panicked => .panicked

/-- The loop of `StandardMerkleTree.Validate`: re-encode each record and
compare with `tree[v.TreeIndex]` (a panic when the index is outside the
array). -/
def standardValidateLoop (k : List (Fin 256) → Bytes32) (enc : List Str) (tree : List Str) :
    List StandardValue → GoRes Unit
  | [] => .ok ()
  | v :: r =>
    match encodeAndHash k enc v.value with
    | .ok h =>
      if hb : v.treeIndex < tree.length then
        if tree.get ⟨v.treeIndex, hb⟩ = hex h then standardValidateLoop k enc tree r
        else .err .invariantV
      else .panicked
    | .err e => .err e
    | .panicked => .panicked

/-- `StandardMerkleTree.Validate`. -/
def standardValidate (k : List (Fin 256) → Bytes32) (t : StandardMerkleTree) : GoRes Unit :=
  match standardValidateLoop k t.leafEncoding t.tree t.values with
  | .ok _ => if isValidTree k t.tree then .ok () else .err .invariantV
  | r => r

/-- `LoadStandardMerkleTree`: require the `"standard-v1"` tag, then validate. -/
def loadStandardMerkleTree (k : List (Fin 256) → Bytes32) (d : StandardTreeData) :
    GoRes StandardMerkleTree :=
  if d.format ≠ "standard-v1".toList then .err .invalidFormat
  else
    match standardValidate k ⟨d.tree, d.values, d.leafEncoding⟩ with
    | .ok _ => .ok ⟨d.tree, d.values, d.leafEncoding⟩
    | .err e => .err e
    | .panicked => .panicked

/-- `StandardMerkleTree.Dump`. -/
def dumpStandard (t : StandardMerkleTree) : StandardTreeData :=
  ⟨"standard-v1".toList, t.leafEncoding, t.tree, t.values⟩

/-- `StandardMerkleTree.Root`. -/
def standardRoot (t : StandardMerkleTree) : Str := t.tree.getD 0 []

/-- `StandardMerkleTree.Len`. -/
def standardLen (t : StandardMerkleTree) : Nat := t.values.length

/-! ## Concrete values for witnesses -/

/-- A concrete stand-in for Keccak-256 used to instantiate witnesses: the
first 32 bytes of the zero-padded input. -/
def toyKeccak (l : List (Fin 256)) : Bytes32 :=
  ⟨(l ++ List.replicate 32 0).take 32, by
    rw [List.length_take, List.length_append, List.length_replicate]; omega⟩

/-- A second concrete 32-byte value (last byte 1). -/
def one32 : Bytes32 := ⟨List.replicate 31 0 ++ [1], by simp⟩

/-- The array function `MakeTree` materializes (leaf placement, then the
conditional fill loop). -/
def mtArr (k : List (Fin 256) → Bytes32) (L : List Bytes32) : Nat → Str :=
  let n := 2 * L.length - 1
  let a1 := updSeq (L.enum.map (fun p => (n - 1 - p.1, hex p.2))) (fun _ => [])
  if L.length ≥ 2 then fillFrom k a1 (L.length - 2) else a1

/-- The parsed value of tree entry `i` (zero for a missing or malformed
entry), used to state properties of tree node values. -/
def tv (T : List Str) (i : Nat) : Bytes32 := parseOrZero (T.getD i [])

/-- Every entry of the tree is the canonical hex image of some 32-byte
value. -/
def EntriesHex (T : List Str) : Prop :=
  ∀ i, i < T.length → ∃ b : Bytes32, T.getD i [] = hex b

/-- Every node with a right child carries the pair hash of its children. -/
def InternalHash (k : List (Fin 256) → Bytes32) (T : List Str) : Prop :=
  ∀ i, rightChild i < T.length →
    tv T i = hashNode k (tv T (leftChild i)) (tv T (rightChild i))

/-- The invariant of the multi-proof work stack: strictly descending, and
every later element exceeds the parent of every earlier one. -/
def Pinv (l : List Nat) : Prop :=
  l.Pairwise (fun a b => b < a ∧ parent a < b)

/-! # Theorems -/

/-! ## Hex round trip -/

theorem hexVal_hexDigit : ∀ d : Fin 16, hexVal (hexDigit d) = some d := by decide

theorem decodePairs_encBytes (l : List (Fin 256)) : decodePairs (encBytes l) = some l := by
  induction l with
  | nil => rfl
  | cons b r ih =>
    have hb := b.isLt
    simp only [encBytes, decodePairs, hexVal_hexDigit, ih]
    congr 1
    refine List.cons_eq_cons.mpr ⟨?_, rfl⟩
    apply Fin.ext
    simp only
    omega

theorem encBytes_length (l : List (Fin 256)) : (encBytes l).length = 2 * l.length := by
  induction l with
  | nil => rfl
  | cons b r ih => simp [encBytes, ih]; omega

theorem hexToBytes32_hex (b : Bytes32) : hexToBytes32 (hex b) = .ok b := by
  have hlen : b.val.length = 32 := b.property
  simp only [hexToBytes32, hex, trim0x, decodePairs_encBytes]
  rw [dif_pos hlen]

theorem parseOrZero_hex (b : Bytes32) : parseOrZero (hex b) = b := by
  simp [parseOrZero, hexToBytes32_hex]

theorem isValidNode_hex (b : Bytes32) : isValidNode (hex b) = true := by
  simp [isValidNode, hexToBytes32_hex]

/-- `hexToBytes32` only ever fails with the two hex errors. -/
theorem hexToBytes32_err (s : Str) (e : GErr) (h : hexToBytes32 s = .err e) :
    e = .invalidHex ∨ e = .invalidNodeLength := by
  unfold hexToBytes32 at h
  split at h
  · cases h; exact Or.inl rfl
  · split at h
    · cases h
    · cases h; exact Or.inr rfl

/-! ## The pair hash is commutative -/

theorem bytesCompare_swap (a b : List (Fin 256)) : bytesCompare b a = -bytesCompare a b := by
  induction a generalizing b with
  | nil => cases b <;> rfl
  | cons x xs ih =>
    cases b with
    | nil => rfl
    | cons y ys =>
      simp only [bytesCompare]
      rcases Nat.lt_trichotomy x.val y.val with h1 | h1 | h1
      · rw [if_neg (by omega), if_pos h1, if_pos h1]; decide
      · rw [if_neg (by omega), if_neg (by omega), if_neg (by omega), if_neg (by omega)]
        exact ih ys
      · rw [if_pos h1, if_neg (by omega), if_pos h1]

theorem bytesCompare_eq_zero (a b : List (Fin 256)) (h : bytesCompare a b = 0) : a = b := by
  induction a generalizing b with
  | nil => cases b with
    | nil => rfl
    | cons y ys => simp [bytesCompare] at h
  | cons x xs ih =>
    cases b with
    | nil => simp [bytesCompare] at h
    | cons y ys =>
      simp only [bytesCompare] at h
      by_cases h1 : x.val < y.val
      · rw [if_pos h1] at h; omega
      · by_cases h2 : y.val < x.val
        · rw [if_neg h1, if_pos h2] at h; omega
        · rw [if_neg h1, if_neg h2] at h
          have : x = y := Fin.ext (by omega)
          rw [this, ih ys h]

theorem concatSorted_comm (a b : Bytes32) : concatSorted a b = concatSorted b a := by
  unfold concatSorted b32Less
  by_cases h1 : bytesCompare a.val b.val < 0
  · rw [if_pos (by simpa using h1), if_neg (by rw [bytesCompare_swap]; simp; omega)]
  · by_cases h2 : bytesCompare b.val a.val < 0
    · rw [if_neg (by simpa using h1), if_pos (by simpa using h2)]
    · have hz : bytesCompare a.val b.val = 0 := by
        have hs := bytesCompare_swap a.val b.val
        omega
      have : a = b := Subtype.ext (bytesCompare_eq_zero _ _ hz)
      rw [this]

theorem hashNode_comm (k : List (Fin 256) → Bytes32) (a b : Bytes32) :
    hashNode k a b = hashNode k b a := by
  unfold hashNode; rw [concatSorted_comm]

/-! ## Sibling and parent arithmetic -/

theorem xor_one_even (m : Nat) : (2 * m) ^^^ 1 = 2 * m + 1 := by
  have h1 : (2 * m : Nat) = Nat.bit false m := by simp [Nat.bit]
  have h2 : (1 : Nat) = Nat.bit true 0 := by simp [Nat.bit]
  rw [h1, h2, Nat.xor_bit]
  simp [Nat.bit]

theorem xor_one_odd (m : Nat) : (2 * m + 1) ^^^ 1 = 2 * m := by
  have h1 : (2 * m + 1 : Nat) = Nat.bit true m := by simp [Nat.bit]
  have h2 : (1 : Nat) = Nat.bit true 0 := by simp [Nat.bit]
  rw [h1, h2, Nat.xor_bit]
  simp [Nat.bit]

/-- For odd `j`, the sibling is `j + 1`. -/
theorem sibling_odd (j : Nat) (h : j % 2 = 1) : sibling j = j + 1 := by
  unfold sibling
  have : j + 1 = 2 * ((j + 1) / 2) := by omega
  rw [this, xor_one_even]
  omega

/-- For even `j ≥ 1`, the sibling is `j - 1`. -/
theorem sibling_even (j : Nat) (h : j % 2 = 0) : sibling j = j - 1 := by
  unfold sibling
  have : j + 1 = 2 * (j / 2) + 1 := by omega
  rw [this, xor_one_odd]
  omega

/-- A node `j ≥ 1` and its sibling are exactly the two children of its
parent. -/
theorem children_of_parent (j : Nat) (hj : 1 ≤ j) :
    (j = leftChild (parent j) ∧ sibling j = rightChild (parent j)) ∨
    (j = rightChild (parent j) ∧ sibling j = leftChild (parent j)) := by
  rcases Nat.even_or_odd j with he | ho
  · right
    have h2 : j % 2 = 0 := Nat.even_iff.mp he
    rw [sibling_even j h2]
    unfold parent leftChild rightChild
    omega
  · left
    have h2 : j % 2 = 1 := Nat.odd_iff.mp ho
    rw [sibling_odd j h2]
    unfold parent leftChild rightChild
    omega

theorem parent_lt (j : Nat) (h : 1 ≤ j) : parent j < j := by
  unfold parent; omega

theorem parent_mono (a b : Nat) (h : a ≤ b) : parent a ≤ parent b := by
  unfold parent; omega

/-- `parent a = parent j` for `a, j ≥ 1` forces `a ∈ {j, sibling j}`. -/
theorem eq_child_of_parent_eq (a j : Nat) (ha : 1 ≤ a) (hj : 1 ≤ j)
    (h : parent a = parent j) : a = j ∨ a = sibling j := by
  rcases children_of_parent j hj with ⟨h1, h2⟩ | ⟨h1, h2⟩ <;>
    rcases children_of_parent a ha with ⟨g1, g2⟩ | ⟨g1, g2⟩ <;>
      unfold leftChild rightChild at * <;> omega

/-- The sibling of `j ≥ 1` is within an odd-length array that contains `j`. -/
theorem sibling_lt_of_odd (j n : Nat) (hj : 1 ≤ j) (hjn : j < n) (hodd : n % 2 = 1) :
    sibling j < n := by
  rcases Nat.even_or_odd j with he | ho
  · rw [sibling_even j (Nat.even_iff.mp he)]; omega
  · rw [sibling_odd j (Nat.odd_iff.mp ho)]
    have : j % 2 = 1 := Nat.odd_iff.mp ho
    omega

/-! ## Array-write and fill-loop characterization -/

theorem updSeq_notMem {α : Type} (ps : List (Nat × α)) (a : Nat → α) (j : Nat)
    (h : ∀ p ∈ ps, p.1 ≠ j) : updSeq ps a j = a j := by
  induction ps generalizing a with
  | nil => rfl
  | cons p r ih =>
    obtain ⟨key, val⟩ := p
    simp only [updSeq]
    rw [ih _ (fun q hq => h q (List.mem_cons_of_mem _ hq))]
    exact Function.update_noteq (Ne.symm (h (key, val) (List.mem_cons_self _ _))) _ _

theorem updSeq_mem {α : Type} (ps : List (Nat × α)) (a : Nat → α) (j : Nat) (v : α)
    (hnd : (ps.map Prod.fst).Nodup) (hmem : (j, v) ∈ ps) : updSeq ps a j = v := by
  induction ps generalizing a with
  | nil => cases hmem
  | cons p r ih =>
    obtain ⟨key, val⟩ := p
    simp only [updSeq]
    rcases List.mem_cons.mp hmem with he | hm
    · cases he
      rw [updSeq_notMem]
      · exact Function.update_same _ _ _
      · intro q hq he2
        have hj : j ∉ r.map Prod.fst := (List.nodup_cons.mp hnd).1
        exact hj (he2 ▸ List.mem_map_of_mem Prod.fst hq)
    · exact ih _ (List.nodup_cons.mp hnd).2 hm

theorem fillFrom_gt (k : List (Fin 256) → Bytes32) (a : Nat → Str) (i : Nat) :
    ∀ j, i < j → fillFrom k a i j = a j := by
  induction i generalizing a with
  | zero =>
    intro j hj
    simp only [fillFrom]
    exact Function.update_noteq (by omega) _ _
  | succ i ih =>
    intro j hj
    simp only [fillFrom]
    rw [ih _ _ (by omega)]
    exact Function.update_noteq (by omega) _ _

theorem fillFrom_le (k : List (Fin 256) → Bytes32) (a : Nat → Str) (i : Nat) :
    ∀ j, j ≤ i →
      fillFrom k a i j =
        hex (hashNode k (parseOrZero (fillFrom k a i (leftChild j)))
          (parseOrZero (fillFrom k a i (rightChild j)))) := by
  induction i generalizing a with
  | zero =>
    intro j hj
    have hj0 : j = 0 := by omega
    subst hj0
    simp only [fillFrom]
    rw [Function.update_same,
      Function.update_noteq (show leftChild 0 ≠ 0 by simp [leftChild]),
      Function.update_noteq (show rightChild 0 ≠ 0 by simp [rightChild])]
  | succ i ih =>
    intro j hj
    rcases Nat.lt_or_ge j (i + 1) with hlt | hge
    · simp only [fillFrom]
      exact ih _ j (by omega)
    · have hj1 : j = i + 1 := by omega
      subst hj1
      simp only [fillFrom]
      rw [fillFrom_gt _ _ _ _ (by omega),
        fillFrom_gt _ _ _ _ (show i < leftChild (i + 1) by simp [leftChild]; omega),
        fillFrom_gt _ _ _ _ (show i < rightChild (i + 1) by simp [rightChild]; omega),
        Function.update_same,
        Function.update_noteq (show leftChild (i + 1) ≠ i + 1 by simp [leftChild]; omega),
        Function.update_noteq (show rightChild (i + 1) ≠ i + 1 by simp [rightChild]; omega)]

/-! ## MakeTree characterization -/

theorem getD_range_map {α : Type} (f : Nat → α) (d : α) (n i : Nat) (h : i < n) :
    ((List.range n).map f).getD i d = f i := by
  rw [List.getD_eq_getElem _ _ (by simpa using h)]
  simp

theorem makeTree_eq (k : List (Fin 256) → Bytes32) (L : List Bytes32)
    (h : L.length ≠ 0) :
    makeTree k L = .ok ((List.range (2 * L.length - 1)).map (mtArr k L)) := by
  simp only [makeTree, mtArr, if_neg h]

/-- The leaf-placement pairs have pairwise distinct keys. -/
theorem mtKeys_nodup (L : List Bytes32) (n : Nat) (hn : L.length ≤ n) :
    ((L.enum.map (fun p => (n - 1 - p.1, hex p.2))).map Prod.fst).Nodup := by
  rw [List.map_map]
  have : (Prod.fst ∘ fun p : Nat × Bytes32 => (n - 1 - p.1, hex p.2)) =
      (fun m => n - 1 - m) ∘ Prod.fst := rfl
  rw [this, ← List.map_map, List.enum_map_fst]
  refine List.Nodup.map_on ?_ (List.nodup_range _)
  intro x hx y hy hxy
  rw [List.mem_range] at hx hy
  omega

theorem mtArr_leafPos (k : List (Fin 256) → Bytes32) (L : List Bytes32) (i : Nat)
    (hi : i < L.length) : mtArr k L (2 * L.length - 2 - i) = hex (L.getD i zero32) := by
  have hmem : (2 * L.length - 1 - 1 - i, hex (L.getD i zero32)) ∈
      L.enum.map (fun p => (2 * L.length - 1 - 1 - p.1, hex p.2)) := by
    have h1 : L.enum.get ⟨i, by simpa using hi⟩ = (i, L[i]) := by simp
    have h2 : (i, L[i]) ∈ L.enum := h1 ▸ List.get_mem _ _ _
    have h3 : L.getD i zero32 = L[i] := List.getD_eq_getElem _ _ hi
    rw [h3]
    exact List.mem_map_of_mem _ h2
  have hbase : updSeq (L.enum.map (fun p => (2 * L.length - 1 - 1 - p.1, hex p.2)))
      (fun _ => []) (2 * L.length - 2 - i) = hex (L.getD i zero32) := by
    have : 2 * L.length - 2 - i = 2 * L.length - 1 - 1 - i := by omega
    rw [this]
    exact updSeq_mem _ _ _ _ (mtKeys_nodup L _ (by omega)) hmem
  unfold mtArr
  by_cases h2 : L.length ≥ 2
  · rw [if_pos h2, fillFrom_gt _ _ _ _ (by omega)]
    exact hbase
  · rw [if_neg h2]
    exact hbase

theorem mtArr_node (k : List (Fin 256) → Bytes32) (L : List Bytes32) (i : Nat)
    (hi : i < L.length - 1) :
    mtArr k L i =
      hex (hashNode k (parseOrZero (mtArr k L (leftChild i)))
        (parseOrZero (mtArr k L (rightChild i)))) := by
  have h2 : L.length ≥ 2 := by omega
  unfold mtArr
  rw [if_pos h2]
  exact fillFrom_le _ _ _ _ (by omega)

theorem mtArr_hexImage (k : List (Fin 256) → Bytes32) (L : List Bytes32) (i : Nat)
    (hn : i < 2 * L.length - 1) : ∃ b, mtArr k L i = hex b := by
  rcases Nat.lt_or_ge i (L.length - 1) with hlt | hge
  · exact ⟨_, mtArr_node k L i hlt⟩
  · have hi : 2 * L.length - 2 - i < L.length := by omega
    have : i = 2 * L.length - 2 - (2 * L.length - 2 - i) := by omega
    rw [this]
    exact ⟨_, mtArr_leafPos k L _ hi⟩

/-- Every tree `MakeTree` builds passes `IsValidTree`. -/
theorem makeTree_isValidTree (k : List (Fin 256) → Bytes32) (L : List Bytes32)
    (h : L.length ≠ 0) :
    isValidTree k ((List.range (2 * L.length - 1)).map (mtArr k L)) = true := by
  unfold isValidTree
  rw [Bool.and_eq_true]
  constructor
  · simp
    omega
  · rw [List.all_eq_true]
    intro i hi
    have hin : i < 2 * L.length - 1 := by
      simp at hi
      omega
    rw [getD_range_map _ _ _ _ hin]
    obtain ⟨b, hb⟩ := mtArr_hexImage k L i hin
    rw [Bool.and_eq_true]
    constructor
    · rw [hb]; exact isValidNode_hex b
    · have hlen : ((List.range (2 * L.length - 1)).map (mtArr k L)).length =
          2 * L.length - 1 := by simp
      rw [hlen]
      by_cases hr : rightChild i ≥ 2 * L.length - 1
      · rw [if_pos hr]
        simp only [leftChild, rightChild] at *
        simp
        omega
      · rw [if_neg hr]
        have hil : i < L.length - 1 := by
          simp only [rightChild] at hr
          omega
        rw [getD_range_map _ _ _ _ (by simp only [leftChild, rightChild] at *; omega),
          getD_range_map _ _ _ _ (by simp only [leftChild, rightChild] at *; omega)]
        rw [mtArr_node k L i hil, parseOrZero_hex]
        simp

/-! ## Derived facts about MakeTree trees -/

theorem entry_hex_parse (T : List Str) (hEH : EntriesHex T) (i : Nat) (hi : i < T.length) :
    T.getD i [] = hex (tv T i) ∧ hexToBytes32 (T.getD i []) = .ok (tv T i) := by
  obtain ⟨b, hb⟩ := hEH i hi
  have htv : tv T i = b := by rw [tv, hb, parseOrZero_hex]
  rw [htv, hb]
  exact ⟨rfl, hexToBytes32_hex b⟩

theorem makeTree_entriesHex (k : List (Fin 256) → Bytes32) (L : List Bytes32) :
    EntriesHex ((List.range (2 * L.length - 1)).map (mtArr k L)) := by
  intro i hi
  have hin : i < 2 * L.length - 1 := by simpa using hi
  rw [getD_range_map _ _ _ _ hin]
  exact mtArr_hexImage k L i hin

theorem makeTree_internalHash (k : List (Fin 256) → Bytes32) (L : List Bytes32) :
    InternalHash k ((List.range (2 * L.length - 1)).map (mtArr k L)) := by
  intro i hr
  have hrn : rightChild i < 2 * L.length - 1 := by simpa using hr
  have hil : i < L.length - 1 := by simp only [rightChild] at hrn; omega
  have hln : leftChild i < 2 * L.length - 1 := by
    simp only [leftChild, rightChild] at *; omega
  have hin : i < 2 * L.length - 1 := by simp only [rightChild] at hrn; omega
  unfold tv
  rw [getD_range_map _ _ _ _ hin, getD_range_map _ _ _ _ hln, getD_range_map _ _ _ _ hrn,
    mtArr_node k L i hil, parseOrZero_hex]

/-! ## Single-proof round trip over any hex-image hash-consistent tree -/

theorem getProofLoop_ppAux (k : List (Fin 256) → Bytes32) (T : List Str)
    (hodd : T.length % 2 = 1) (hEH : EntriesHex T) (hIH : InternalHash k T) :
    ∀ i, i < T.length →
      ∃ prf, getProofLoop T i = .ok prf ∧ ppAux k (tv T i) prf = .ok (hex (tv T 0)) := by
  intro i
  induction i using Nat.strong_induction_on with
  | _ i ihs =>
    intro hi
    by_cases hj : i = 0
    · subst hj
      refine ⟨[], ?_, rfl⟩
      rw [getProofLoop]
      simp
    · have hj1 : 1 ≤ i := by omega
      have hs : sibling i < T.length := sibling_lt_of_odd i T.length hj1 hi hodd
      have hp : parent i < i := parent_lt i hj1
      obtain ⟨prf', hloop, hfold⟩ := ihs (parent i) hp (by omega)
      refine ⟨T.get ⟨sibling i, hs⟩ :: prf', ?_, ?_⟩
      · rw [getProofLoop]
        rw [if_pos (by omega), dif_pos hs, hloop]
      · have hget : T.get ⟨sibling i, hs⟩ = T.getD (sibling i) [] :=
          (List.getD_eq_getElem T [] hs).symm
        have hparse := (entry_hex_parse T hEH (sibling i) hs).2
        simp only [ppAux, hget, hparse]
        have hchild : rightChild (parent i) < T.length := by
          rcases children_of_parent i hj1 with ⟨h1, h2⟩ | ⟨h1, h2⟩
          · omega
          · omega
        have hhash : hashNode k (tv T i) (tv T (sibling i)) = tv T (parent i) := by
          rcases children_of_parent i hj1 with ⟨h1, h2⟩ | ⟨h1, h2⟩
          · rw [hIH (parent i) hchild, ← h1, ← h2]
          · rw [hIH (parent i) hchild, ← h1, ← h2, hashNode_comm]
        rw [hhash]
        exact hfold

/-! ## Binary search, insertion, sorting, duplicate scan -/

theorem bsLoopF_all_gt (l : List Nat) (t : Nat) :
    ∀ fuel i j, j - i < fuel → i ≤ j → j ≤ l.length → (∀ q ∈ l, t < q) →
      bsLoopF l t fuel i j = j := by
  intro fuel
  induction fuel with
  | zero => intro i j h1; omega
  | succ fuel ih =>
    intro i j h1 h2 h3 h4
    rw [bsLoopF]
    by_cases hij : i < j
    · rw [if_pos hij]
      have hm : (i + j) / 2 < l.length := by omega
      have hmem : l.getD ((i + j) / 2) 0 ∈ l := by
        rw [List.getD_eq_getElem _ _ hm]
        exact List.getElem_mem _
      have hlt : t < l.getD ((i + j) / 2) 0 := h4 _ hmem
      rw [if_pos (by omega)]
      exact ih _ _ (by omega) (by omega) h3 h4
    · rw [if_neg hij]
      omega

theorem bsPos_all_gt (l : List Nat) (t : Nat) (h : ∀ q ∈ l, t < q) :
    bsPos l t = l.length :=
  bsLoopF_all_gt l t (l.length + 1) 0 l.length (by omega) (by omega) (by omega) h

theorem insertAt_len {α : Type} (a : α) (l : List α) : insertAt l.length a l = l ++ [a] := by
  induction l with
  | nil => rfl
  | cons x xs ih => simp [insertAt, ih]

theorem insertAt_length {α : Type} (a : α) : ∀ (n : Nat) (l : List α),
    (insertAt n a l).length = l.length + 1 := by
  intro n l
  induction l generalizing n with
  | nil => simp [insertAt]
  | cons x xs ih =>
    cases n with
    | zero => simp [insertAt]
    | succ n => simp [insertAt, ih]

theorem insertAt_sum (a : Nat) : ∀ (n : Nat) (l : List Nat),
    (insertAt n a l).sum = a + l.sum := by
  intro n l
  induction l generalizing n with
  | nil => simp [insertAt]
  | cons x xs ih =>
    cases n with
    | zero => simp [insertAt]
    | succ n => simp [insertAt, ih]; omega

theorem insDesc_perm (x : Nat) (l : List Nat) : List.Perm (insDesc x l) (x :: l) := by
  induction l with
  | nil => rfl
  | cons y r ih =>
    unfold insDesc
    by_cases h : y ≤ x
    · rw [if_pos h]
    · rw [if_neg h]
      exact (List.Perm.cons y ih).trans (List.Perm.swap x y r)

theorem sortDesc_perm (l : List Nat) : List.Perm (sortDesc l) l := by
  induction l with
  | nil => rfl
  | cons x r ih =>
    unfold sortDesc at *
    exact ((insDesc_perm x (r.foldr insDesc [])).trans (List.Perm.cons x ih))

theorem insDesc_sorted (x : Nat) (l : List Nat) (h : l.Pairwise (fun a b => b ≤ a)) :
    (insDesc x l).Pairwise (fun a b => b ≤ a) := by
  induction l with
  | nil => simp [insDesc]
  | cons y r ih =>
    unfold insDesc
    obtain ⟨hy, hr⟩ := List.pairwise_cons.mp h
    by_cases hc : y ≤ x
    · rw [if_pos hc]
      refine List.pairwise_cons.mpr ⟨?_, h⟩
      intro b hb
      rcases List.mem_cons.mp hb with rfl | hbm
      · exact hc
      · exact le_trans (hy b hbm) hc
    · rw [if_neg hc]
      refine List.pairwise_cons.mpr ⟨?_, ih hr⟩
      intro b hb
      have := (insDesc_perm x r).mem_iff.mp hb
      rcases List.mem_cons.mp this with rfl | hbm
      · omega
      · exact hy b hbm

theorem sortDesc_sorted (l : List Nat) : (sortDesc l).Pairwise (fun a b => b ≤ a) := by
  induction l with
  | nil => simp [sortDesc]
  | cons x r ih => exact insDesc_sorted x _ ih

theorem hasDupAux_false_iff (l : List Nat) : ∀ seen : List Nat,
    hasDupAux seen l = false ↔ (l.Nodup ∧ ∀ x ∈ l, x ∉ seen) := by
  induction l with
  | nil => intro seen; simp [hasDupAux]
  | cons x r ih =>
    intro seen
    simp only [hasDupAux, Bool.or_eq_false_iff, ih (x :: seen), List.nodup_cons]
    constructor
    · rintro ⟨h1, h2, h3⟩
      have hxs : x ∉ seen := by simpa using h1
      refine ⟨⟨?_, h2⟩, ?_⟩
      · intro hxr
        exact (h3 x hxr) (List.mem_cons_self x seen)
      · intro y hy
        rcases List.mem_cons.mp hy with rfl | hyr
        · exact hxs
        · intro hys
          exact (h3 y hyr) (List.mem_cons_of_mem x hys)
    · rintro ⟨⟨h1, h2⟩, h3⟩
      refine ⟨?_, h2, ?_⟩
      · simpa using h3 x (List.mem_cons_self x r)
      · intro y hyr hys
        rcases List.mem_cons.mp hys with rfl | hys2
        · exact h1 hyr
        · exact (h3 y (List.mem_cons_of_mem x hyr)) hys2

/-! ## The work-stack invariant -/

theorem pinv_zero_head (rest : List Nat) (h : Pinv (0 :: rest)) : rest = [] := by
  cases rest with
  | nil => rfl
  | cons q r =>
    have := (List.pairwise_cons.mp h).1 q (List.mem_cons_self q r)
    omega

theorem pinv_drop_snd (j s : Nat) (rest : List Nat) (h : Pinv (j :: s :: rest)) :
    Pinv (j :: rest) :=
  h.sublist (List.Sublist.cons₂ j (List.sublist_cons_self s rest))

theorem sibling_notMem (j : Nat) (rest : List Nat) (hP : Pinv (j :: rest)) (hj : 1 ≤ j)
    (hh : rest.head? ≠ some (sibling j)) : sibling j ∉ rest := by
  intro hmem
  have hdesc := (List.pairwise_cons.mp hP).1 _ hmem
  rcases Nat.even_or_odd j with he | ho
  · have h2 : j % 2 = 0 := Nat.even_iff.mp he
    rw [sibling_even j h2] at hmem hh hdesc
    cases rest with
    | nil => cases hmem
    | cons h0 r2 =>
      have hh0 : h0 ≠ j - 1 := by
        intro he2
        exact hh (by rw [he2]; rfl)
      rcases List.mem_cons.mp hmem with he2 | hm2
      · exact hh0 he2.symm
      · have hlt := (List.pairwise_cons.mp (List.pairwise_cons.mp hP).2).1 _ hm2
        have hlt2 := (List.pairwise_cons.mp hP).1 h0 (List.mem_cons_self h0 r2)
        omega
  · have h2 : j % 2 = 1 := Nat.odd_iff.mp ho
    rw [sibling_odd j h2] at hdesc
    omega

theorem pinv_insert_parent (j : Nat) (rest : List Nat) (hP : Pinv (j :: rest)) (hj : 1 ≤ j)
    (hs : sibling j ∉ rest) :
    (∀ q ∈ rest, parent j < q) ∧ Pinv (rest ++ [parent j]) := by
  have hhead := (List.pairwise_cons.mp hP).1
  have htail := (List.pairwise_cons.mp hP).2
  have hgt : ∀ q ∈ rest, parent j < q := fun q hq => (hhead q hq).2
  refine ⟨hgt, ?_⟩
  unfold Pinv
  rw [List.pairwise_append]
  refine ⟨htail, List.pairwise_singleton _ _, ?_⟩
  intro a ha b hb
  rcases List.mem_singleton.mp hb with rfl
  refine ⟨hgt a ha, ?_⟩
  -- parent a < parent j: a lies strictly between parent j and j, and is
  -- neither j nor its sibling, so its parent is strictly below parent j.
  have ha1 : 1 ≤ a := by
    have := hgt a ha
    omega
  have haj : a < j := (hhead a ha).1
  have hmono : parent a ≤ parent j := parent_mono a j (by omega)
  rcases Nat.lt_or_ge (parent a) (parent j) with hlt | hge
  · exact hlt
  · have heq : parent a = parent j := by omega
    rcases eq_child_of_parent_eq a j ha1 hj heq with rfl | he2
    · omega
    · exact absurd (he2 ▸ ha) hs

/-! ## The generation loop: length accounting -/

theorem genLoopAux_len (T : List Str) : ∀ fuel stack flags prf fin,
    genLoopAux T fuel stack = some (.out flags prf fin) →
    stack.length + prf.length = flags.length + fin.length := by
  intro fuel
  induction fuel with
  | zero => intro stack flags prf fin h; simp [genLoopAux] at h
  | succ fuel ih =>
    intro stack flags prf fin h
    cases stack with
    | nil =>
      simp only [genLoopAux, Option.some.injEq, GenRes.out.injEq] at h
      obtain ⟨h1, h2, h3⟩ := h
      subst h1; subst h2; subst h3
      rfl
    | cons j rest =>
      simp only [genLoopAux] at h
      by_cases hj : j = 0
      · rw [if_pos hj] at h
        simp only [Option.some.injEq, GenRes.out.injEq] at h
        obtain ⟨h1, h2, h3⟩ := h
        subst h1; subst h2; subst h3
        simp
      · rw [if_neg hj] at h
        by_cases hhead : rest.head? = some (sibling j)
        · rw [if_pos hhead] at h
          cases rest with
          | nil => simp at hhead
          | cons r0 rest' =>
            cases hrec : genLoopAux T fuel
                (insertAt (bsPos (r0 :: rest').tail (parent j)) (parent j)
                  (r0 :: rest').tail) with
            | none => rw [hrec] at h; simp at h
            | some g =>
              rw [hrec] at h
              cases g with
              | oops => simp at h
              | out flags' prf' fin' =>
                simp only [Option.some.injEq, GenRes.out.injEq] at h
                obtain ⟨h1, h2, h3⟩ := h
                subst h1; subst h2; subst h3
                have hlen := ih _ _ _ _ hrec
                rw [insertAt_length] at hlen
                simp only [List.tail_cons] at hlen
                simp only [List.length_cons]
                omega
        · rw [if_neg hhead] at h
          by_cases hs : sibling j < T.length
          · rw [dif_pos hs] at h
            cases hrec : genLoopAux T fuel
                (insertAt (bsPos rest (parent j)) (parent j) rest) with
            | none => rw [hrec] at h; simp at h
            | some g =>
              rw [hrec] at h
              cases g with
              | oops => simp at h
              | out flags' prf' fin' =>
                simp only [Option.some.injEq, GenRes.out.injEq] at h
                obtain ⟨h1, h2, h3⟩ := h
                subst h1; subst h2; subst h3
                have hlen := ih _ _ _ _ hrec
                rw [insertAt_length] at hlen
                simp only [List.length_cons]
                omega
          · rw [dif_neg hs] at h
            simp at h

/-! ## The generation loop: final stack shape -/

theorem genLoopAux_fin (T : List Str) : ∀ fuel stack flags prf fin, Pinv stack →
    genLoopAux T fuel stack = some (.out flags prf fin) →
    (stack = [] ∧ fin = []) ∨ fin = [0] := by
  intro fuel
  induction fuel with
  | zero => intro stack flags prf fin hP h; simp [genLoopAux] at h
  | succ fuel ih =>
    intro stack flags prf fin hP h
    cases stack with
    | nil =>
      simp only [genLoopAux, Option.some.injEq, GenRes.out.injEq] at h
      exact Or.inl ⟨rfl, h.2.2.symm⟩
    | cons j rest =>
      simp only [genLoopAux] at h
      by_cases hj : j = 0
      · rw [if_pos hj] at h
        simp only [Option.some.injEq, GenRes.out.injEq] at h
        obtain ⟨h1, h2, h3⟩ := h
        subst hj
        have := pinv_zero_head rest hP
        subst this
        exact Or.inr h3.symm
      · rw [if_neg hj] at h
        have hj1 : 1 ≤ j := by omega
        by_cases hhead : rest.head? = some (sibling j)
        · rw [if_pos hhead] at h
          cases rest with
          | nil => simp at hhead
          | cons r0 rest' =>
            have hr0 : r0 = sibling j := by simpa using hhead
            subst hr0
            have hP' : Pinv (j :: rest') := pinv_drop_snd j _ rest' hP
            have hs_not : sibling j ∉ rest' := by
              intro hmem
              have := (List.pairwise_cons.mp (List.pairwise_cons.mp hP).2).1 _ hmem
              omega
            obtain ⟨hgt, hPnew⟩ := pinv_insert_parent j rest' hP' hj1 hs_not
            have hins : insertAt (bsPos rest' (parent j)) (parent j) rest' =
                rest' ++ [parent j] := by
              rw [bsPos_all_gt rest' (parent j) hgt, insertAt_len]
            simp only [List.tail_cons] at h
            rw [hins] at h
            cases hrec : genLoopAux T fuel (rest' ++ [parent j]) with
            | none => rw [hrec] at h; simp at h
            | some g =>
              rw [hrec] at h
              cases g with
              | oops => simp at h
              | out flags' prf' fin' =>
                simp only [Option.some.injEq, GenRes.out.injEq] at h
                obtain ⟨h1, h2, h3⟩ := h
                subst h3
                rcases ih _ _ _ _ hPnew hrec with ⟨he, _⟩ | hfin
                · exact absurd he (by simp)
                · exact Or.inr hfin
        · rw [if_neg hhead] at h
          have hs_not : sibling j ∉ rest := sibling_notMem j rest hP hj1 hhead
          obtain ⟨hgt, hPnew⟩ := pinv_insert_parent j rest hP hj1 hs_not
          have hins : insertAt (bsPos rest (parent j)) (parent j) rest =
              rest ++ [parent j] := by
            rw [bsPos_all_gt rest (parent j) hgt, insertAt_len]
          rw [hins] at h
          by_cases hs : sibling j < T.length
          · rw [dif_pos hs] at h
            cases hrec : genLoopAux T fuel (rest ++ [parent j]) with
            | none => rw [hrec] at h; simp at h
            | some g =>
              rw [hrec] at h
              cases g with
              | oops => simp at h
              | out flags' prf' fin' =>
                simp only [Option.some.injEq, GenRes.out.injEq] at h
                obtain ⟨h1, h2, h3⟩ := h
                subst h3
                rcases ih _ _ _ _ hPnew hrec with ⟨he, _⟩ | hfin
                · exact absurd he (by simp)
                · exact Or.inr hfin
          · rw [dif_neg hs] at h
            simp at h

/-! ## The generation loop simulates the verification loop -/

theorem get_mid {α : Type} (pre mid post : List α) (x : α)
    (h : pre.length < ((pre ++ (x :: mid)) ++ post).length) :
    ((pre ++ (x :: mid)) ++ post).get ⟨pre.length, h⟩ = x := by
  rw [List.get_eq_getElem, List.getElem_append_left (by simp)]
  rw [List.getElem_append_right (le_refl _)]
  simp

/-- Main simulation: on a tree whose entries are canonical hex images and
whose internal nodes are pair hashes of their children, the generation loop
ends with work stack `[0]`, and the verification loop, run on the generated
flags with the generated proof entries spliced anywhere into a larger proof
list, folds the corresponding tree values to the root value. -/
theorem genSim (k : List (Fin 256) → Bytes32) (T : List Str)
    (hodd : T.length % 2 = 1) (hEH : EntriesHex T) (hIH : InternalHash k T) :
    ∀ fuel stack, stack.sum < fuel → Pinv stack → (∀ q ∈ stack, q < T.length) →
      stack ≠ [] →
      ∃ flags prf, genLoopAux T fuel stack = some (.out flags prf [0]) ∧
        ∀ pre post : List Str,
          processFlags k (pre ++ prf ++ post) flags pre.length (stack.map (tv T)) =
            .ok ([tv T 0], pre.length + prf.length) := by
  intro fuel
  induction fuel with
  | zero => intro stack hsum; omega
  | succ fuel ih =>
    intro stack hsum hP hB hne
    cases stack with
    | nil => exact absurd rfl hne
    | cons j rest =>
      by_cases hj : j = 0
      · subst hj
        have hrest := pinv_zero_head rest hP
        subst hrest
        refine ⟨[], [], ?_, ?_⟩
        · simp [genLoopAux]
        · intro pre post
          simp [processFlags]
      · have hj1 : 1 ≤ j := by omega
        have hjT : j < T.length := hB j (List.mem_cons_self _ _)
        have hsT : sibling j < T.length := sibling_lt_of_odd j T.length hj1 hjT hodd
        have hchild : rightChild (parent j) < T.length := by
          rcases children_of_parent j hj1 with ⟨h1, h2⟩ | ⟨h1, h2⟩ <;> omega
        have hhash : hashNode k (tv T j) (tv T (sibling j)) = tv T (parent j) := by
          rcases children_of_parent j hj1 with ⟨h1, h2⟩ | ⟨h1, h2⟩
          · rw [hIH (parent j) hchild, ← h1, ← h2]
          · rw [hIH (parent j) hchild, ← h1, ← h2, hashNode_comm]
        have hplt : parent j < j := parent_lt j hj1
        by_cases hhead : rest.head? = some (sibling j)
        · cases rest with
          | nil => simp at hhead
          | cons r0 rest' =>
            have hr0 : r0 = sibling j := by simpa using hhead
            subst hr0
            have hP' : Pinv (j :: rest') := pinv_drop_snd j _ rest' hP
            have hs_not : sibling j ∉ rest' := by
              intro hmem
              have := (List.pairwise_cons.mp (List.pairwise_cons.mp hP).2).1 _ hmem
              omega
            obtain ⟨hgt, hPnew⟩ := pinv_insert_parent j rest' hP' hj1 hs_not
            have hins : insertAt (bsPos rest' (parent j)) (parent j) rest' =
                rest' ++ [parent j] := by
              rw [bsPos_all_gt rest' (parent j) hgt, insertAt_len]
            have hsum' : (rest' ++ [parent j]).sum < fuel := by
              simp only [List.sum_append, List.sum_cons] at hsum ⊢
              simp
              omega
            have hBnew : ∀ q ∈ rest' ++ [parent j], q < T.length := by
              intro q hq
              rcases List.mem_append.mp hq with hq1 | hq2
              · exact hB q (by simp [hq1])
              · rcases List.mem_singleton.mp hq2 with rfl
                omega
            obtain ⟨flags', prf', hrec, hproc⟩ :=
              ih (rest' ++ [parent j]) hsum' hPnew hBnew (by simp)
            refine ⟨true :: flags', prf', ?_, ?_⟩
            · simp only [genLoopAux]
              rw [if_neg hj, if_pos (by simp), List.tail_cons, hins, hrec]
            · intro pre post
              simp only [List.map_cons, processFlags, if_true]
              have hmap : List.map (tv T) rest' ++
                  [hashNode k (tv T j) (tv T (sibling j))] =
                  List.map (tv T) (rest' ++ [parent j]) := by
                rw [hhash]; simp
              rw [hmap]
              exact hproc pre post
        · have hs_not : sibling j ∉ rest := sibling_notMem j rest hP hj1 hhead
          obtain ⟨hgt, hPnew⟩ := pinv_insert_parent j rest hP hj1 hs_not
          have hins : insertAt (bsPos rest (parent j)) (parent j) rest =
              rest ++ [parent j] := by
            rw [bsPos_all_gt rest (parent j) hgt, insertAt_len]
          have hsum' : (rest ++ [parent j]).sum < fuel := by
            simp only [List.sum_append, List.sum_cons] at hsum ⊢
            simp
            omega
          have hBnew : ∀ q ∈ rest ++ [parent j], q < T.length := by
            intro q hq
            rcases List.mem_append.mp hq with hq1 | hq2
            · exact hB q (by simp [hq1])
            · rcases List.mem_singleton.mp hq2 with rfl
              omega
          obtain ⟨flags', prf', hrec, hproc⟩ :=
            ih (rest ++ [parent j]) hsum' hPnew hBnew (by simp)
          refine ⟨false :: flags', T.get ⟨sibling j, hsT⟩ :: prf', ?_, ?_⟩
          · simp only [genLoopAux]
            rw [if_neg hj, if_neg hhead, dif_pos hsT, hins, hrec]
          · intro pre post
            simp only [List.map_cons, processFlags]
            rw [if_neg (by simp)]
            have hlen : pre.length <
                (pre ++ (T.get ⟨sibling j, hsT⟩ :: prf') ++ post).length := by
              simp
            rw [dif_pos hlen, get_mid]
            have hTs : T.get ⟨sibling j, hsT⟩ = T.getD (sibling j) [] :=
              (List.getD_eq_getElem T [] hsT).symm
            rw [hTs, (entry_hex_parse T hEH _ hsT).2]
            dsimp only
            have hmap : List.map (tv T) rest ++
                [hashNode k (tv T j) (tv T (sibling j))] =
                List.map (tv T) (rest ++ [parent j]) := by
              rw [hhash]; simp
            rw [hmap]
            have hassoc : pre ++ (T.getD (sibling j) [] :: prf') ++ post =
                (pre ++ [T.getD (sibling j) []]) ++ prf' ++ post := by
              simp
            rw [hassoc]
            have hres := hproc (pre ++ [T.getD (sibling j) []]) post
            rw [List.length_append, List.length_singleton] at hres
            rw [hres]
            simp only [GoRes.ok.injEq, Prod.mk.injEq, List.length_cons]
            exact ⟨trivial, by omega⟩

/-! ## Assembly lemmas for the multi-proof round trip -/

theorem checkLeaf_none_iff (n i : Nat) :
    checkLeaf n i = none ↔ (i < n ∧ n ≤ 2 * i + 1) := by
  simp only [checkLeaf, isTreeNode, isLeafNode, isInternalNode, leftChild]
  by_cases h1 : i < n
  · by_cases h2 : n ≤ 2 * i + 1
    · simp [h1, h2]
    · simp [h1]
  · simp [h1]

theorem makeTree_ok_props (k : List (Fin 256) → Bytes32) (L : List Bytes32) (T : List Str)
    (h : makeTree k L = .ok T) :
    L.length ≠ 0 ∧ T = (List.range (2 * L.length - 1)).map (mtArr k L) ∧
      T.length = 2 * L.length - 1 ∧ T.length % 2 = 1 ∧
      EntriesHex T ∧ InternalHash k T := by
  have hL : L.length ≠ 0 := by
    intro he
    rw [makeTree, if_pos he] at h
    cases h
  have hTeq : T = (List.range (2 * L.length - 1)).map (mtArr k L) := by
    rw [makeTree_eq k L hL] at h
    cases h
    rfl
  refine ⟨hL, hTeq, ?_, ?_, ?_, ?_⟩
  · rw [hTeq]; simp
  · rw [hTeq]; simp; omega
  · rw [hTeq]; exact makeTree_entriesHex k L
  · rw [hTeq]; exact makeTree_internalHash k L

theorem pinv_of_leaves (n : Nat) (l : List Nat)
    (hsort : l.Pairwise (fun a b => b ≤ a)) (hnd : l.Nodup)
    (hleaf : ∀ q ∈ l, q < n ∧ n ≤ 2 * q + 1) : Pinv l := by
  have hcomb := hsort.and hnd
  refine List.Pairwise.imp_of_mem ?_ hcomb
  intro a b ha hb hr
  obtain ⟨hle, hne⟩ := hr
  obtain ⟨han, hal⟩ := hleaf a ha
  obtain ⟨hbn, hbl⟩ := hleaf b hb
  have hba : b < a := by omega
  refine ⟨hba, ?_⟩
  unfold parent
  omega

theorem parseLeaves_map (T : List Str) (hEH : EntriesHex T) :
    ∀ l : List Nat, (∀ q ∈ l, q < T.length) →
      parseLeaves (l.map (fun idx => T.getD idx [])) = .ok (l.map (tv T)) := by
  intro l
  induction l with
  | nil => intro _; rfl
  | cons q r ih =>
    intro hb
    have hq : q < T.length := hb q (List.mem_cons_self _ _)
    simp only [List.map_cons, parseLeaves, (entry_hex_parse T hEH q hq).2,
      ih (fun x hx => hb x (List.mem_cons_of_mem _ hx))]

theorem getMultiProof_nil (T : List Str) (h0 : 0 < T.length) :
    getMultiProof T [] = .ok ⟨[], [T.getD 0 []], []⟩ := by
  have h4 : genLoopAux T (List.sum [] + 1) [] = some (.out [] [] []) := rfl
  simp only [getMultiProof, List.findSome?_nil, sortDesc, List.foldr_nil, hasDupAux,
    Bool.false_eq_true, if_false, h4, List.length_nil, ne_eq, Nat.zero_ne_one,
    not_false_eq_true, if_true, List.map_nil, List.nil_append]
  rw [dif_pos h0]
  rw [List.getD_eq_getElem T [] h0]
  rfl

/-! ## Claim theorems: core tree construction and proofs -/

/-- C6: for every non-empty leaf sequence `L`, `MakeTree` succeeds with an
array of length `2·len(L)-1` that places leaf `i` at position `2·len(L)-2-i`,
stores at every node with a right child the pair hash of its children, and
passes `IsValidTree`; for the empty sequence it fails with `EMPTY_TREE`. -/
theorem C6_make_tree (k : List (Fin 256) → Bytes32) (L : List Bytes32) (h : L ≠ []) :
    makeTree k [] = .err .emptyTree ∧
    ∃ T, makeTree k L = .ok T ∧
      T.length = 2 * L.length - 1 ∧
      (∀ i, i < L.length → T.getD (2 * L.length - 2 - i) [] = hex (L.getD i zero32)) ∧
      (∀ i, rightChild i < T.length →
        T.getD i [] = hex (hashNode k (parseOrZero (T.getD (leftChild i) []))
          (parseOrZero (T.getD (rightChild i) [])))) ∧
      isValidTree k T = true := by
  have hL : L.length ≠ 0 := fun he => h (List.length_eq_zero.mp he)
  refine ⟨by simp [makeTree], (List.range (2 * L.length - 1)).map (mtArr k L),
    makeTree_eq k L hL, by simp, ?_, ?_, makeTree_isValidTree k L hL⟩
  · intro i hi
    have hpos : 2 * L.length - 2 - i < 2 * L.length - 1 := by omega
    rw [getD_range_map _ _ _ _ hpos]
    exact mtArr_leafPos k L i hi
  · intro i hr
    have hrn : rightChild i < 2 * L.length - 1 := by simpa using hr
    have hil : i < L.length - 1 := by simp only [rightChild] at hrn; omega
    rw [getD_range_map _ _ _ _ (show i < 2 * L.length - 1 by
        simp only [rightChild] at hrn; omega),
      getD_range_map _ _ _ _ (show leftChild i < 2 * L.length - 1 by
        simp only [leftChild, rightChild] at hrn ⊢; omega),
      getD_range_map _ _ _ _ hrn]
    exact mtArr_node k L i hil

theorem C6_make_tree_witness :
    ([zero32] ≠ ([] : List Bytes32)) ∧
    (makeTree toyKeccak [] = .err .emptyTree ∧
    ∃ T, makeTree toyKeccak [zero32] = .ok T ∧
      T.length = 2 * [zero32].length - 1 ∧
      (∀ i, i < [zero32].length →
        T.getD (2 * [zero32].length - 2 - i) [] = hex ([zero32].getD i zero32)) ∧
      (∀ i, rightChild i < T.length →
        T.getD i [] = hex (hashNode toyKeccak (parseOrZero (T.getD (leftChild i) []))
          (parseOrZero (T.getD (rightChild i) [])))) ∧
      isValidTree toyKeccak T = true) :=
  ⟨by simp, C6_make_tree toyKeccak [zero32] (by simp)⟩

/-- C7: for every tree built by `MakeTree` and every leaf position `i`,
`ProcessProof` on the leaf value `tree[i]` and the proof from `GetProof`
returns the root `tree[0]`. -/
theorem C7_single_roundtrip (k : List (Fin 256) → Bytes32) (L : List Bytes32)
    (T : List Str) (i : Nat) (hT : makeTree k L = .ok T)
    (hleaf : checkLeaf T.length i = none) :
    ∃ prf, getProof T i = .ok prf ∧
      processProof k (parseOrZero (T.getD i [])) prf = .ok (T.getD 0 []) := by
  obtain ⟨hL, hTeq, hlen, hodd, hEH, hIH⟩ := makeTree_ok_props k L T hT
  have hi : i < T.length := ((checkLeaf_none_iff _ _).mp hleaf).1
  have h0 : 0 < T.length := by omega
  obtain ⟨prf, hloop, hfold⟩ := getProofLoop_ppAux k T hodd hEH hIH i hi
  refine ⟨prf, ?_, ?_⟩
  · simp only [getProof, hleaf]
    exact hloop
  · show ppAux k (tv T i) prf = _
    rw [hfold, (entry_hex_parse T hEH 0 h0).1]

theorem C7_single_roundtrip_witness :
    (makeTree toyKeccak [zero32] = .ok [hex zero32]) ∧
    (checkLeaf ([hex zero32] : List Str).length 0 = none) ∧
    ∃ prf, getProof [hex zero32] 0 = .ok prf ∧
      processProof toyKeccak (parseOrZero (([hex zero32] : List Str).getD 0 []))
        prf = .ok (([hex zero32] : List Str).getD 0 []) :=
  ⟨by decide, by decide,
    C7_single_roundtrip toyKeccak [zero32] [hex zero32] 0 (by decide) (by decide)⟩

/-- C10: `ProcessMultiProof` on `{leaves: [], proof: [s], flags: []}` returns
the proof entry `s` verbatim, for any string, with no hex validation and in
particular never `INVALID_HEX`. -/
theorem C10_verbatim_root (k : List (Fin 256) → Bytes32) (s : Str) :
    processMultiProof k ⟨[], [s], []⟩ = .ok s := rfl

/-- C2 counterexample: on the one-leaf tree, `GetMultiProof` with empty
indices returns proof `[tree[0]]` (not `[]`), the result satisfies the
structural invariant, and `ProcessMultiProof` on it succeeds with the root
instead of failing with `INVARIANT`. -/
theorem C2_cex :
    getMultiProof [hex zero32] [] = .ok ⟨[], [hex zero32], []⟩ ∧
    ([hex zero32] : List Str) ≠ [] ∧
    processMultiProof toyKeccak ⟨[], [hex zero32], []⟩ = .ok (hex zero32) ∧
    (GoRes.ok (hex zero32) : GoRes Str) ≠ .err .invariantV := by
  refine ⟨by decide, by decide, rfl, by decide⟩

/-- C2 amended: on any non-empty tree, `GetMultiProof` with an empty index
list returns `{leaves: [], proof: [tree[0]], flags: []}` — which satisfies
the structural invariant — and `ProcessMultiProof` on that value succeeds,
returning `tree[0]`; on an empty tree `GetMultiProof` panics. -/
theorem C2_empty_indices (k : List (Fin 256) → Bytes32) (T : List Str) (h : T ≠ []) :
    getMultiProof T [] = .ok ⟨[], [T.getD 0 []], []⟩ ∧
    processMultiProof k ⟨[], [T.getD 0 []], []⟩ = .ok (T.getD 0 []) ∧
    getMultiProof ([] : List Str) [] = .panicked := by
  refine ⟨getMultiProof_nil T (List.length_pos.mpr h), rfl, rfl⟩

theorem C2_empty_indices_witness :
    ([hex zero32] ≠ ([] : List Str)) ∧
    (getMultiProof [hex zero32] [] =
        .ok ⟨[], [([hex zero32] : List Str).getD 0 []], []⟩ ∧
      processMultiProof toyKeccak ⟨[], [([hex zero32] : List Str).getD 0 []], []⟩ =
        .ok (([hex zero32] : List Str).getD 0 []) ∧
      getMultiProof ([] : List Str) [] = .panicked) :=
  ⟨by decide, C2_empty_indices toyKeccak [hex zero32] (by decide)⟩

/-- C1: for every tree built by `MakeTree` and every list of distinct leaf
positions (the empty list included), `GetMultiProof` succeeds and
`ProcessMultiProof` of its result returns the root `tree[0]`. -/
theorem C1_multi_roundtrip (k : List (Fin 256) → Bytes32) (L : List Bytes32)
    (T : List Str) (S : List Nat) (hT : makeTree k L = .ok T)
    (hS : ∀ i ∈ S, checkLeaf T.length i = none) (hnd : S.Nodup) :
    ∃ mp, getMultiProof T S = .ok mp ∧ processMultiProof k mp = .ok (T.getD 0 []) := by
  obtain ⟨hL, hTeq, hlen, hodd, hEH, hIH⟩ := makeTree_ok_props k L T hT
  have h0 : 0 < T.length := by omega
  by_cases hSnil : S = []
  · subst hSnil
    exact ⟨⟨[], [T.getD 0 []], []⟩, getMultiProof_nil T h0, rfl⟩
  · have hfind : S.findSome? (fun i => checkLeaf T.length i) = none :=
      List.findSome?_eq_none_iff.mpr hS
    have hperm := sortDesc_perm S
    have hndS : (sortDesc S).Nodup := hperm.nodup_iff.mpr hnd
    have hdup : hasDupAux [] (sortDesc S) = false :=
      (hasDupAux_false_iff _ _).mpr ⟨hndS, by simp⟩
    have hsne : sortDesc S ≠ [] := by
      intro he
      have := hperm.length_eq
      rw [he] at this
      exact hSnil (List.length_eq_zero.mp this.symm)
    have hleafS : ∀ q ∈ sortDesc S, q < T.length ∧ T.length ≤ 2 * q + 1 := by
      intro q hq
      exact (checkLeaf_none_iff _ _).mp (hS q (hperm.mem_iff.mp hq))
    have hPinv := pinv_of_leaves T.length (sortDesc S) (sortDesc_sorted S) hndS hleafS
    have hB : ∀ q ∈ sortDesc S, q < T.length := fun q hq => (hleafS q hq).1
    obtain ⟨flags, prf, hgen, hproc⟩ := genSim k T hodd hEH hIH
      ((sortDesc S).sum + 1) (sortDesc S) (by omega) hPinv hB hsne
    have hlenrel := genLoopAux_len T _ _ _ _ _ hgen
    simp only [List.length_cons, List.length_nil] at hlenrel
    refine ⟨⟨(sortDesc S).map (fun idx => T.getD idx []), prf, flags⟩, ?_, ?_⟩
    · simp only [getMultiProof, hfind]
      rw [if_neg (by simp [hdup])]
      simp only [hgen]
      rw [if_neg (by simp)]
    · simp only [processMultiProof]
      rw [if_neg (by simp only [List.length_map]; omega)]
      rw [parseLeaves_map T hEH _ hB]
      dsimp only
      have hp0 := hproc [] []
      simp only [List.nil_append, List.append_nil, List.length_nil] at hp0
      rw [hp0]
      dsimp only
      rw [(entry_hex_parse T hEH 0 h0).1]

theorem C1_multi_roundtrip_witness :
    (makeTree toyKeccak [zero32, one32] =
        .ok [hex (hashNode toyKeccak one32 zero32), hex one32, hex zero32]) ∧
    (∀ i ∈ [2], checkLeaf
        ([hex (hashNode toyKeccak one32 zero32), hex one32, hex zero32] : List Str).length
        i = none) ∧
    ([2] : List Nat).Nodup ∧
    ∃ mp, getMultiProof
        [hex (hashNode toyKeccak one32 zero32), hex one32, hex zero32] [2] = .ok mp ∧
      processMultiProof toyKeccak mp =
        .ok (([hex (hashNode toyKeccak one32 zero32), hex one32, hex zero32] :
          List Str).getD 0 []) :=
  ⟨by decide, by decide, by decide,
    C1_multi_roundtrip toyKeccak [zero32, one32] _ [2] (by decide) (by decide) (by decide)⟩

/-- C3: every `MultiProof` that `GetMultiProof` returns successfully — for
any tree and any index list, the empty list included — satisfies
`len(leaves) + len(proof) = len(flags) + 1`. -/
theorem C3_invariant (T : List Str) (S : List Nat) (mp : MultiProof)
    (h : getMultiProof T S = .ok mp) :
    mp.Leaves.length + mp.Proof.length = mp.ProofFlags.length + 1 := by
  simp only [getMultiProof] at h
  cases hf : S.findSome? (fun i => checkLeaf T.length i) with
  | some e => rw [hf] at h; cases h
  | none =>
    rw [hf] at h
    by_cases hdup : hasDupAux [] (sortDesc S) = true
    · rw [if_pos hdup] at h; cases h
    · rw [if_neg hdup] at h
      have hndS : (sortDesc S).Nodup :=
        ((hasDupAux_false_iff _ _).mp (by simpa using hdup)).1
      have hleafS : ∀ q ∈ sortDesc S, q < T.length ∧ T.length ≤ 2 * q + 1 := by
        intro q hq
        have hqS : q ∈ S := (sortDesc_perm S).mem_iff.mp hq
        exact (checkLeaf_none_iff _ _).mp (List.findSome?_eq_none_iff.mp hf q hqS)
      have hPinv := pinv_of_leaves T.length _ (sortDesc_sorted S) hndS hleafS
      cases hg : genLoopAux T ((sortDesc S).sum + 1) (sortDesc S) with
      | none => rw [hg] at h; cases h
      | some g =>
        rw [hg] at h
        cases g with
        | oops => cases h
        | out flags prf fin =>
          have hlenrel := genLoopAux_len T _ _ _ _ _ hg
          have hfin := genLoopAux_fin T _ _ _ _ _ hPinv hg
          dsimp only at h
          by_cases hf1 : fin.length ≠ 1
          · rw [if_pos hf1] at h
            by_cases h0 : 0 < T.length
            · rw [dif_pos h0] at h
              cases h
              simp only [List.length_map, List.length_append, List.length_cons,
                List.length_nil]
              rcases hfin with ⟨hse, hfe⟩ | hfe
              · rw [hfe] at hlenrel
                simp only [List.length_nil] at hlenrel
                omega
              · rw [hfe] at hf1
                simp at hf1
            · rw [dif_neg h0] at h; cases h
          · rw [if_neg hf1] at h
            cases h
            simp only [List.length_map]
            rcases hfin with ⟨hse, hfe⟩ | hfe
            · rw [hfe] at hf1
              simp at hf1
            · rw [hfe] at hlenrel
              simp only [List.length_cons, List.length_nil] at hlenrel
              omega

theorem C3_invariant_witness :
    (getMultiProof [hex zero32] [0] = .ok ⟨[hex zero32], [], []⟩) ∧
    (MultiProof.mk [hex zero32] [] []).Leaves.length +
        (MultiProof.mk [hex zero32] [] []).Proof.length =
      (MultiProof.mk [hex zero32] [] []).ProofFlags.length + 1 :=
  ⟨by decide, C3_invariant [hex zero32] [0] ⟨[hex zero32], [], []⟩ (by decide)⟩

/-! ## Claim theorems: error kinds of ProcessProof -/

theorem hexToBytes32_not_panic (s : Str) : hexToBytes32 s ≠ .panicked := by
  unfold hexToBytes32
  split
  · simp
  · split <;> simp

/-- C8 counterexample: the proof entry `"0x00"` is not a valid hex encoding
of exactly 32 bytes, yet `ProcessProof` fails with `INVALID_NODE_LENGTH`,
not `INVALID_HEX`. -/
theorem C8_cex :
    processProof toyKeccak zero32 ["0x00".toList] = .err .invalidNodeLength ∧
    GErr.invalidNodeLength ≠ GErr.invalidHex := ⟨by decide, by decide⟩

/-- The error of a failed `HexToBytes32` is determined by how the string is
malformed: `INVALID_HEX` exactly when hex decoding (after trimming `0x`)
fails, `INVALID_NODE_LENGTH` exactly when it decodes to some byte string of
the wrong length. -/
theorem hexToBytes32_err_kind (s : Str) (e : GErr) (h : hexToBytes32 s = .err e) :
    e = (match decodePairs (trim0x s) with
         | none => GErr.invalidHex
         | some _ => GErr.invalidNodeLength) := by
  unfold hexToBytes32 at h
  cases hd : decodePairs (trim0x s) with
  | none =>
    rw [hd] at h
    dsimp only at h
    cases h
    rfl
  | some data =>
    rw [hd] at h
    dsimp only at h
    by_cases hl : data.length = 32
    · rw [dif_pos hl] at h; cases h
    · rw [dif_neg hl] at h
      cases h
      rfl

/-- C8 amended: for every proof list containing a malformed entry (one that
`HexToBytes32` rejects), `ProcessProof` fails; the error is `INVALID_HEX`
when hex decoding fails and `INVALID_NODE_LENGTH` when the decoded length is
not 32 bytes.  The second part pins the error exactly: writing the proof as
well-formed entries followed by the first malformed entry `s`, the returned
error is `INVALID_HEX` precisely when `s` fails hex decoding and
`INVALID_NODE_LENGTH` precisely when `s` decodes to a non-32-byte string. -/
theorem C8_error_kinds (k : List (Fin 256) → Bytes32) :
    (∀ (leaf : Bytes32) (proof : List Str),
      (∃ s ∈ proof, ∃ e, hexToBytes32 s = .err e) →
      ∃ e, processProof k leaf proof = .err e ∧
        (e = .invalidHex ∨ e = .invalidNodeLength)) ∧
    (∀ (leaf : Bytes32) (pre : List Str) (s : Str) (rest : List Str),
      (∀ p ∈ pre, ∃ b, hexToBytes32 p = .ok b) →
      (∃ e, hexToBytes32 s = .err e) →
      processProof k leaf (pre ++ s :: rest) =
        .err (match decodePairs (trim0x s) with
              | none => GErr.invalidHex
              | some _ => GErr.invalidNodeLength)) := by
  constructor
  · intro leaf proof h
    induction proof generalizing leaf with
    | nil => obtain ⟨s, hs, _⟩ := h; cases hs
    | cons s r ih =>
      cases hparse : hexToBytes32 s with
      | ok b =>
        have hr : ∃ s2 ∈ r, ∃ e, hexToBytes32 s2 = .err e := by
          obtain ⟨s2, hs2, e2, he2⟩ := h
          rcases List.mem_cons.mp hs2 with rfl | hmem
          · rw [hparse] at he2; cases he2
          · exact ⟨s2, hmem, e2, he2⟩
        obtain ⟨e, he, hkind⟩ := ih (hashNode k leaf b) hr
        refine ⟨e, ?_, hkind⟩
        show ppAux k leaf (s :: r) = .err e
        simp only [ppAux, hparse]
        exact he
      | err e =>
        refine ⟨e, ?_, hexToBytes32_err s e hparse⟩
        show ppAux k leaf (s :: r) = .err e
        simp only [ppAux, hparse]
      | panicked => exact absurd hparse (hexToBytes32_not_panic s)
  · intro leaf pre s rest hpre hbad
    induction pre generalizing leaf with
    | nil =>
      obtain ⟨e0, he0⟩ := hbad
      have hk := hexToBytes32_err_kind s e0 he0
      show ppAux k leaf ([] ++ s :: rest) = _
      simp only [List.nil_append, ppAux, he0]
      rw [hk]
    | cons p pre2 ih =>
      obtain ⟨b, hb⟩ := hpre p (List.mem_cons_self _ _)
      show ppAux k leaf ((p :: pre2) ++ s :: rest) = _
      simp only [List.cons_append, ppAux, hb]
      exact ih (hashNode k leaf b) (fun q hq => hpre q (List.mem_cons_of_mem _ hq))

theorem C8_error_kinds_witness :
    (∃ s ∈ ["zz".toList], ∃ e, hexToBytes32 s = .err e) ∧
    (∃ e, processProof toyKeccak zero32 ["zz".toList] = .err e ∧
      (e = .invalidHex ∨ e = .invalidNodeLength)) ∧
    (∀ p ∈ ([hex zero32] : List Str), ∃ b, hexToBytes32 p = .ok b) ∧
    (∃ e, hexToBytes32 "0x00".toList = .err e) ∧
    processProof toyKeccak zero32 ([hex zero32] ++ "0x00".toList :: []) =
      .err (match decodePairs (trim0x "0x00".toList) with
            | none => GErr.invalidHex
            | some _ => GErr.invalidNodeLength) :=
  ⟨⟨"zz".toList, by decide, .invalidHex, by decide⟩,
    (C8_error_kinds toyKeccak).1 zero32 ["zz".toList]
      ⟨"zz".toList, by decide, .invalidHex, by decide⟩,
    by
      intro p hp
      rw [List.mem_singleton] at hp
      subst hp
      exact ⟨zero32, hexToBytes32_hex zero32⟩,
    ⟨.invalidNodeLength, by decide⟩,
    (C8_error_kinds toyKeccak).2 zero32 [hex zero32] "0x00".toList []
      (by
        intro p hp
        rw [List.mem_singleton] at hp
        subst hp
        exact ⟨zero32, hexToBytes32_hex zero32⟩)
      ⟨.invalidNodeLength, by decide⟩⟩

/-! ## Claim theorems: load panics on out-of-range tree indices -/

/-- C4 (code bug): both facade loaders, fed serialized data whose
`treeIndex` lies outside the tree array, panic instead of returning an
error — `Validate` indexes `t.tree[v.TreeIndex]` unchecked. -/
theorem C4_load_panics (k : List (Fin 256) → Bytes32) :
    loadSimpleMerkleTree k
      ⟨"simple-v1".toList, [hex zero32], [⟨hex zero32, 5⟩]⟩ = .panicked ∧
    loadStandardMerkleTree k
      ⟨"standard-v1".toList, [], [hex zero32], [⟨[], 7⟩]⟩ = .panicked :=
  ⟨rfl, rfl⟩

/-! ## Claim theorems: multi-proof leaf ordering -/

theorem getMultiProof_ok_leaves (T : List Str) (S : List Nat) (mp : MultiProof)
    (h : getMultiProof T S = .ok mp) :
    mp.Leaves = (sortDesc S).map (fun idx => T.getD idx []) ∧ (sortDesc S).Nodup := by
  simp only [getMultiProof] at h
  cases hf : S.findSome? (fun i => checkLeaf T.length i) with
  | some e => rw [hf] at h; cases h
  | none =>
    rw [hf] at h
    by_cases hdup : hasDupAux [] (sortDesc S) = true
    · rw [if_pos hdup] at h; cases h
    · rw [if_neg hdup] at h
      have hndS : (sortDesc S).Nodup :=
        ((hasDupAux_false_iff _ _).mp (by simpa using hdup)).1
      cases hg : genLoopAux T ((sortDesc S).sum + 1) (sortDesc S) with
      | none => rw [hg] at h; cases h
      | some g =>
        rw [hg] at h
        cases g with
        | oops => cases h
        | out flags prf fin =>
          dsimp only at h
          by_cases hf1 : fin.length ≠ 1
          · rw [if_pos hf1] at h
            by_cases h0 : 0 < T.length
            · rw [dif_pos h0] at h
              cases h
              exact ⟨rfl, hndS⟩
            · rw [dif_neg h0] at h; cases h
          · rw [if_neg hf1] at h
            cases h
            exact ⟨rfl, hndS⟩

/-- C5 amended: the core `GetMultiProof` returns leaves at the strictly
descending sort of the requested tree indices; the Simple facade's
`GetMultiProofByIndices` then replaces them with the original pre-hash
values in the caller's input order, not in descending tree-index order. -/
theorem C5_leaf_order :
    (∀ (T : List Str) (S : List Nat) (mp : MultiProof),
      getMultiProof T S = .ok mp →
        mp.Leaves = (sortDesc S).map (fun idx => T.getD idx []) ∧
        List.Perm (sortDesc S) S ∧ (sortDesc S).Pairwise (· > ·)) ∧
    (∀ (t : SimpleMerkleTree) (idxs : List Nat) (mp : MultiProof),
      simpleGetMultiProofByIndices t idxs = .ok mp →
        mp.Leaves = idxs.map (fun i => (t.values.getD i ⟨[], 0⟩).value)) := by
  constructor
  · intro T S mp h
    obtain ⟨hl, hnd⟩ := getMultiProof_ok_leaves T S mp h
    refine ⟨hl, sortDesc_perm S, ?_⟩
    refine ((sortDesc_sorted S).and hnd).imp ?_
    intro a b hr
    omega
  · intro t idxs mp h
    simp only [simpleGetMultiProofByIndices] at h
    by_cases hb : idxs.any (fun i => decide (i ≥ t.values.length)) = true
    · rw [if_pos hb] at h; cases h
    · rw [if_neg hb] at h
      cases hg : getMultiProof t.tree
          (idxs.map (fun i => (t.values.getD i ⟨[], 0⟩).treeIndex)) with
      | ok mp0 => rw [hg] at h; cases h; rfl
      | err e => rw [hg] at h; cases h
      | panicked => rw [hg] at h; cases h

theorem C5_leaf_order_witness :
    (getMultiProof [hex zero32] [0] = .ok ⟨[hex zero32], [], []⟩) ∧
    ((⟨[hex zero32], [], []⟩ : MultiProof).Leaves =
        (sortDesc [0]).map (fun idx => ([hex zero32] : List Str).getD idx []) ∧
      List.Perm (sortDesc [0]) [0] ∧ (sortDesc [0]).Pairwise (· > ·)) ∧
    (simpleGetMultiProofByIndices ⟨[hex zero32], [⟨hex zero32, 0⟩]⟩ [0] =
      .ok ⟨[hex zero32], [], []⟩) ∧
    ((⟨[hex zero32], [], []⟩ : MultiProof).Leaves =
      [0].map (fun i =>
        (([⟨hex zero32, 0⟩] : List SimpleValue).getD i ⟨[], 0⟩).value)) :=
  ⟨by decide,
    C5_leaf_order.1 [hex zero32] [0] ⟨[hex zero32], [], []⟩ (by decide),
    by decide,
    C5_leaf_order.2 ⟨[hex zero32], [⟨hex zero32, 0⟩]⟩ [0] ⟨[hex zero32], [], []⟩
      (by decide)⟩

/-- C5 counterexample: an unsorted two-value Simple tree, queried with value
indices `[1, 0]`, returns leaves in the caller's order `[hex one32, hex
zero32]` even though value 1 has the smaller tree index — not in descending
tree-index order `[hex zero32, hex one32]`. -/
theorem C5_cex :
    newSimpleMerkleTree toyKeccak [zero32, one32] false =
      .ok ⟨[hex (hashNode toyKeccak one32 zero32), hex one32, hex zero32],
        [⟨hex zero32, 2⟩, ⟨hex one32, 1⟩]⟩ ∧
    simpleGetMultiProofByIndices
      ⟨[hex (hashNode toyKeccak one32 zero32), hex one32, hex zero32],
        [⟨hex zero32, 2⟩, ⟨hex one32, 1⟩]⟩ [1, 0] =
      .ok ⟨[hex one32, hex zero32], [], [true]⟩ ∧
    (1 : Nat) < 2 ∧
    ([hex one32, hex zero32] ≠ [hex zero32, hex one32]) :=
  ⟨by decide, by decide, by decide, by decide⟩

/-! ## Facade construction: dump and load round trip -/

theorem makeTree_leaf_read (k : List (Fin 256) → Bytes32) (L : List Bytes32)
    (T : List Str) (hT : makeTree k L = .ok T) (i : Nat) (hi : i < L.length) :
    T.getD (2 * L.length - 2 - i) [] = hex (L.getD i zero32) := by
  obtain ⟨hL, hTeq, _, _, _, _⟩ := makeTree_ok_props k L T hT
  rw [hTeq, getD_range_map _ _ _ _ (by omega)]
  exact mtArr_leafPos k L i hi

theorem makeTree_ok_valid (k : List (Fin 256) → Bytes32) (L : List Bytes32)
    (T : List Str) (hT : makeTree k L = .ok T) : isValidTree k T = true := by
  obtain ⟨hL, hTeq, _, _, _, _⟩ := makeTree_ok_props k L T hT
  rw [hTeq]
  exact makeTree_isValidTree k L hL

theorem insByHash_perm {α : Type} (x : SItem α) (l : List (SItem α)) :
    List.Perm (insByHash x l) (x :: l) := by
  induction l with
  | nil => rfl
  | cons y r ih =>
    unfold insByHash
    by_cases h : bytesCompare x.hash.val y.hash.val ≤ 0
    · rw [if_pos h]
    · rw [if_neg h]
      exact (List.Perm.cons y ih).trans (List.Perm.swap x y r)

theorem sortByHash_perm {α : Type} (l : List (SItem α)) :
    List.Perm (sortByHash l) l := by
  induction l with
  | nil => rfl
  | cons x r ih =>
    unfold sortByHash at *
    exact (insByHash_perm x (r.foldr insByHash [])).trans (List.Perm.cons x ih)

theorem scatter_spec {α β : Type} (items : List (SItem α)) (g : Nat → SItem α → β)
    (d : Nat → β) (hnd : (items.map (fun it => it.index)).Nodup)
    (pos : Nat) (h : pos < items.length) :
    updSeq (items.enum.map (fun q => (q.2.index, g q.1 q.2))) d
      ((items.get ⟨pos, h⟩).index) = g pos (items.get ⟨pos, h⟩) := by
  apply updSeq_mem
  · rw [List.map_map]
    have hc : ((fun p : Nat × β => p.1) ∘ fun q : Nat × SItem α => (q.2.index, g q.1 q.2)) =
        (fun it : SItem α => it.index) ∘ Prod.snd := rfl
    rw [hc, ← List.map_map, List.enum_map_snd]
    exact hnd
  · have h2 : (pos, items.get ⟨pos, h⟩) ∈ items.enum := by
      have h1 : items.enum.get ⟨pos, by simpa using h⟩ = (pos, items.get ⟨pos, h⟩) := by
        simp
      exact h1 ▸ List.get_mem _ _ _
    have := List.mem_map_of_mem (fun q : Nat × SItem α => (q.2.index, g q.1 q.2)) h2
    simpa using this

theorem simpleValidateLoop_ok (k : List (Fin 256) → Bytes32) (tree : List Str) :
    ∀ vals : List SimpleValue,
      (∀ v ∈ vals, ∃ b, hexToBytes32 v.value = .ok b ∧ v.treeIndex < tree.length ∧
        tree.getD v.treeIndex [] = hex (hashLeaf k b.val)) →
      simpleValidateLoop k tree vals = .ok () := by
  intro vals
  induction vals with
  | nil => intro _; rfl
  | cons v r ih =>
    intro hv
    obtain ⟨b, hb, hidx, htree⟩ := hv v (List.mem_cons_self _ _)
    simp only [simpleValidateLoop, hb]
    rw [dif_pos hidx,
      if_pos (by rw [List.get_eq_getElem, ← List.getD_eq_getElem tree [] hidx]; exact htree)]
    exact ih (fun w hw => hv w (List.mem_cons_of_mem _ hw))

/-- The scattered values of a freshly built Simple tree all re-validate. -/
theorem simpleVals_ok (k : List (Fin 256) → Bytes32) (items : List (SItem Bytes32))
    (tree : List Str)
    (hnd : (items.map (fun it => it.index)).Nodup)
    (hcov : ∀ origIdx, origIdx < items.length →
      ∃ pos, ∃ hp : pos < items.length, (items.get ⟨pos, hp⟩).index = origIdx)
    (hhash : ∀ it ∈ items, it.hash = hashLeaf k it.value.val)
    (hmk : makeTree k (items.map (fun it => it.hash)) = .ok tree) :
    simpleValidateLoop k tree
      ((List.range items.length).map (updSeq (items.enum.map
        (fun q => (q.2.index, SimpleValue.mk (hex q.2.value) (tree.length - 1 - q.1))))
        (fun _ => ⟨[], 0⟩))) = .ok () := by
  obtain ⟨hL, hTeq, hlen, hodd, hEH, hIH⟩ := makeTree_ok_props k _ tree hmk
  simp only [List.length_map] at hL hlen
  apply simpleValidateLoop_ok
  intro v hv
  obtain ⟨origIdx, ha, hveq⟩ := List.mem_map.mp hv
  have hoi := List.mem_range.mp ha
  obtain ⟨pos, hp, hpi⟩ := hcov origIdx hoi
  have hform := scatter_spec items
    (fun q1 q2 => SimpleValue.mk (hex q2.value) (tree.length - 1 - q1))
    (fun _ => ⟨[], 0⟩) hnd pos hp
  rw [hpi] at hform
  rw [← hveq, hform]
  refine ⟨(items.get ⟨pos, hp⟩).value, hexToBytes32_hex _, ?_, ?_⟩
  · simp only
    omega
  · simp only
    have hread := makeTree_leaf_read k _ tree hmk pos (by simpa using hp)
    simp only [List.length_map] at hread
    have hpos_eq : tree.length - 1 - pos = 2 * items.length - 2 - pos := by omega
    rw [hpos_eq, hread]
    have hgetD : (items.map (fun it => it.hash)).getD pos zero32 =
        (items.get ⟨pos, hp⟩).hash := by
      rw [List.getD_eq_getElem _ _ (by simpa using hp)]
      simp
    rw [hgetD, hhash _ (List.get_mem _ _ _)]

theorem newSimple_load (k : List (Fin 256) → Bytes32) (values : List Bytes32)
    (sortLeaves : Bool) (t : SimpleMerkleTree)
    (h : newSimpleMerkleTree k values sortLeaves = .ok t) :
    loadSimpleMerkleTree k (dumpSimple t) = .ok ⟨t.tree, t.values⟩ := by
  simp only [newSimpleMerkleTree] at h
  generalize hitems : (if sortLeaves then sortByHash (values.enum.map
      (fun p => SItem.mk p.2 (hashLeaf k p.2.val) p.1))
    else values.enum.map (fun p => SItem.mk p.2 (hashLeaf k p.2.val) p.1)) = items at h
  have hperm : List.Perm items
      (values.enum.map (fun p => SItem.mk p.2 (hashLeaf k p.2.val) p.1)) := by
    rw [← hitems]
    cases sortLeaves
    · simp
    · simp [sortByHash_perm]
  have hidx_perm : List.Perm (items.map (fun it => it.index))
      (List.range values.length) := by
    have hmapped := hperm.map (fun it => it.index)
    have h0 : (values.enum.map (fun p => SItem.mk p.2 (hashLeaf k p.2.val) p.1)).map
        (fun it => it.index) = List.range values.length := by
      rw [List.map_map]
      have hc : ((fun it : SItem Bytes32 => it.index) ∘
          fun p : Nat × Bytes32 => SItem.mk p.2 (hashLeaf k p.2.val) p.1) = Prod.fst := rfl
      rw [hc, List.enum_map_fst]
    rw [h0] at hmapped
    exact hmapped
  have hnd : (items.map (fun it => it.index)).Nodup :=
    hidx_perm.nodup_iff.mpr (List.nodup_range _)
  have hcov : ∀ origIdx, origIdx < items.length →
      ∃ pos, ∃ hp : pos < items.length, (items.get ⟨pos, hp⟩).index = origIdx := by
    intro origIdx hoi
    have hlen_items : items.length = values.length := by simpa using hperm.length_eq
    have hmem : origIdx ∈ items.map (fun it => it.index) :=
      hidx_perm.mem_iff.mpr (List.mem_range.mpr (by omega))
    obtain ⟨it, hit, hie⟩ := List.mem_map.mp hmem
    obtain ⟨pos, hp, hpe⟩ := List.getElem_of_mem hit
    exact ⟨pos, hp, by rw [show items.get ⟨pos, hp⟩ = it from hpe, hie]⟩
  have hhash : ∀ it ∈ items, it.hash = hashLeaf k it.value.val := by
    intro it hit
    obtain ⟨p, hp, hpe⟩ := List.mem_map.mp (hperm.mem_iff.mp hit)
    rw [← hpe]
  cases hmk : makeTree k (items.map (fun it => it.hash)) with
  | err e => rw [hmk] at h; cases h
  | panicked => rw [hmk] at h; cases h
  | ok tree =>
    rw [hmk] at h
    cases h
    simp only [loadSimpleMerkleTree, dumpSimple]
    rw [if_neg (by simp)]
    have hval : simpleValidate k ⟨tree,
        (List.range items.length).map (updSeq (items.enum.map
          (fun q => (q.2.index, SimpleValue.mk (hex q.2.value) (tree.length - 1 - q.1))))
          (fun _ => ⟨[], 0⟩))⟩ = .ok () := by
      unfold simpleValidate
      rw [simpleVals_ok k items tree hnd hcov hhash hmk,
        makeTree_ok_valid k _ tree hmk]
      rfl
    rw [hval]

theorem hashAllStd_facts (k : List (Fin 256) → Bytes32) (enc : List Str) :
    ∀ (ps : List (Nat × List GoVal)) (items0 : List (SItem (List GoVal))),
      hashAllStd k enc ps = .ok items0 →
      items0.map (fun it => it.index) = ps.map Prod.fst ∧
      items0.map (fun it => it.value) = ps.map Prod.snd ∧
      ∀ it ∈ items0, encodeAndHash k enc it.value = .ok it.hash := by
  intro ps
  induction ps with
  | nil =>
    intro items0 h
    cases h
    exact ⟨rfl, rfl, by intro it hit; cases hit⟩
  | cons p r ih =>
    intro items0 h
    obtain ⟨i, v⟩ := p
    simp only [hashAllStd] at h
    cases he : encodeAndHash k enc v with
    | ok hsh =>
      rw [he] at h
      cases hr : hashAllStd k enc r with
      | ok rest =>
        rw [hr] at h
        cases h
        obtain ⟨h1, h2, h3⟩ := ih rest hr
        refine ⟨by simp [h1], by simp [h2], ?_⟩
        intro it hit
        rcases List.mem_cons.mp hit with rfl | hmem
        · exact he
        · exact h3 it hmem
      | err e => rw [hr] at h; cases h
      | panicked => rw [hr] at h; cases h
    | err e => rw [he] at h; cases h
    | panicked => rw [he] at h; cases h

theorem standardValidateLoop_ok (k : List (Fin 256) → Bytes32) (enc : List Str)
    (tree : List Str) :
    ∀ vals : List StandardValue,
      (∀ v ∈ vals, ∃ b, encodeAndHash k enc v.value = .ok b ∧
        v.treeIndex < tree.length ∧ tree.getD v.treeIndex [] = hex b) →
      standardValidateLoop k enc tree vals = .ok () := by
  intro vals
  induction vals with
  | nil => intro _; rfl
  | cons v r ih =>
    intro hv
    obtain ⟨b, hb, hidx, htree⟩ := hv v (List.mem_cons_self _ _)
    simp only [standardValidateLoop, hb]
    rw [dif_pos hidx,
      if_pos (by rw [List.get_eq_getElem, ← List.getD_eq_getElem tree [] hidx]; exact htree)]
    exact ih (fun w hw => hv w (List.mem_cons_of_mem _ hw))

/-- The scattered values of a freshly built Standard tree all re-validate. -/
theorem standardVals_ok (k : List (Fin 256) → Bytes32) (enc : List Str)
    (items : List (SItem (List GoVal))) (tree : List Str)
    (hnd : (items.map (fun it => it.index)).Nodup)
    (hcov : ∀ origIdx, origIdx < items.length →
      ∃ pos, ∃ hp : pos < items.length, (items.get ⟨pos, hp⟩).index = origIdx)
    (hhash : ∀ it ∈ items, encodeAndHash k enc it.value = .ok it.hash)
    (hmk : makeTree k (items.map (fun it => it.hash)) = .ok tree) :
    standardValidateLoop k enc tree
      ((List.range items.length).map (updSeq (items.enum.map
        (fun q => (q.2.index, StandardValue.mk q.2.value (tree.length - 1 - q.1))))
        (fun _ => ⟨[], 0⟩))) = .ok () := by
  obtain ⟨hL, hTeq, hlen, hodd, hEH, hIH⟩ := makeTree_ok_props k _ tree hmk
  simp only [List.length_map] at hL hlen
  apply standardValidateLoop_ok
  intro v hv
  obtain ⟨origIdx, ha, hveq⟩ := List.mem_map.mp hv
  have hoi := List.mem_range.mp ha
  obtain ⟨pos, hp, hpi⟩ := hcov origIdx hoi
  have hform := scatter_spec items
    (fun q1 q2 => StandardValue.mk q2.value (tree.length - 1 - q1))
    (fun _ => ⟨[], 0⟩) hnd pos hp
  rw [hpi] at hform
  rw [← hveq, hform]
  refine ⟨(items.get ⟨pos, hp⟩).hash, hhash _ (List.get_mem _ _ _), ?_, ?_⟩
  · simp only
    omega
  · simp only
    have hread := makeTree_leaf_read k _ tree hmk pos (by simpa using hp)
    simp only [List.length_map] at hread
    have hpos_eq : tree.length - 1 - pos = 2 * items.length - 2 - pos := by omega
    rw [hpos_eq, hread]
    have hgetD : (items.map (fun it => it.hash)).getD pos zero32 =
        (items.get ⟨pos, hp⟩).hash := by
      rw [List.getD_eq_getElem _ _ (by simpa using hp)]
      simp
    rw [hgetD]

theorem newStandard_load (k : List (Fin 256) → Bytes32) (values : List (List GoVal))
    (enc : List Str) (sortLeaves : Bool) (t : StandardMerkleTree)
    (h : newStandardMerkleTree k values enc sortLeaves = .ok t) :
    loadStandardMerkleTree k (dumpStandard t) = .ok ⟨t.tree, t.values, t.leafEncoding⟩ := by
  simp only [newStandardMerkleTree] at h
  cases hall : hashAllStd k enc values.enum with
  | err e => rw [hall] at h; cases h
  | panicked => rw [hall] at h; cases h
  | ok items0 =>
    rw [hall] at h
    dsimp only at h
    obtain ⟨hidx0, hval0, hhash0⟩ := hashAllStd_facts k enc values.enum items0 hall
    generalize hitems : (if sortLeaves then sortByHash items0 else items0) = items at h
    have hperm : List.Perm items items0 := by
      rw [← hitems]
      cases sortLeaves
      · simp
      · simp [sortByHash_perm]
    have hidx_perm : List.Perm (items.map (fun it => it.index))
        (List.range values.length) := by
      have hmapped := hperm.map (fun it => it.index)
      rw [hidx0, List.enum_map_fst] at hmapped
      exact hmapped
    have hnd : (items.map (fun it => it.index)).Nodup :=
      hidx_perm.nodup_iff.mpr (List.nodup_range _)
    have hcov : ∀ origIdx, origIdx < items.length →
        ∃ pos, ∃ hp : pos < items.length, (items.get ⟨pos, hp⟩).index = origIdx := by
      intro origIdx hoi
      have hlen_items : items.length = values.length := by
        have h1 := hperm.length_eq
        have h2 := congrArg List.length hidx0
        simp at h2
        simp [h1, h2]
      have hmem : origIdx ∈ items.map (fun it => it.index) :=
        hidx_perm.mem_iff.mpr (List.mem_range.mpr (by omega))
      obtain ⟨it, hit, hie⟩ := List.mem_map.mp hmem
      obtain ⟨pos, hp, hpe⟩ := List.getElem_of_mem hit
      exact ⟨pos, hp, by rw [show items.get ⟨pos, hp⟩ = it from hpe, hie]⟩
    have hhash : ∀ it ∈ items, encodeAndHash k enc it.value = .ok it.hash :=
      fun it hit => hhash0 it (hperm.mem_iff.mp hit)
    cases hmk : makeTree k (items.map (fun it => it.hash)) with
    | err e => rw [hmk] at h; cases h
    | panicked => rw [hmk] at h; cases h
    | ok tree =>
      rw [hmk] at h
      cases h
      simp only [loadStandardMerkleTree, dumpStandard]
      rw [if_neg (by simp)]
      have hval : standardValidate k ⟨tree,
          (List.range items.length).map (updSeq (items.enum.map
            (fun q => (q.2.index, StandardValue.mk q.2.value (tree.length - 1 - q.1))))
            (fun _ => ⟨[], 0⟩)), enc⟩ = .ok () := by
        unfold standardValidate
        rw [standardVals_ok k enc items tree hnd hcov hhash hmk,
          makeTree_ok_valid k _ tree hmk]
        rfl
      rw [hval]

/-- C9: loading the dump of a constructed Simple or Standard facade tree
succeeds, and the loaded tree has the same root and the same number of
values. -/
theorem C9_dump_load (k : List (Fin 256) → Bytes32)
    (values : List Bytes32) (sortLeaves : Bool) (t : SimpleMerkleTree)
    (hS : newSimpleMerkleTree k values sortLeaves = .ok t)
    (vals2 : List (List GoVal)) (enc : List Str) (sl2 : Bool) (t2 : StandardMerkleTree)
    (hT : newStandardMerkleTree k vals2 enc sl2 = .ok t2) :
    (∃ t', loadSimpleMerkleTree k (dumpSimple t) = .ok t' ∧
      simpleRoot t' = simpleRoot t ∧ simpleLen t' = simpleLen t) ∧
    (∃ t2', loadStandardMerkleTree k (dumpStandard t2) = .ok t2' ∧
      standardRoot t2' = standardRoot t2 ∧ standardLen t2' = standardLen t2) :=
  ⟨⟨⟨t.tree, t.values⟩, newSimple_load k values sortLeaves t hS, rfl, rfl⟩,
    ⟨⟨t2.tree, t2.values, t2.leafEncoding⟩, newStandard_load k vals2 enc sl2 t2 hT,
      rfl, rfl⟩⟩

theorem C9_dump_load_witness :
    (newSimpleMerkleTree toyKeccak [zero32] true =
      .ok ⟨[hex zero32], [⟨hex zero32, 0⟩]⟩) ∧
    (newStandardMerkleTree toyKeccak [[GoVal.goBool true]] ["bool".toList] true =
      .ok ⟨[hex one32], [⟨[GoVal.goBool true], 0⟩], ["bool".toList]⟩) ∧
    ((∃ t', loadSimpleMerkleTree toyKeccak
        (dumpSimple ⟨[hex zero32], [⟨hex zero32, 0⟩]⟩) = .ok t' ∧
      simpleRoot t' = simpleRoot ⟨[hex zero32], [⟨hex zero32, 0⟩]⟩ ∧
      simpleLen t' = simpleLen ⟨[hex zero32], [⟨hex zero32, 0⟩]⟩) ∧
    (∃ t2', loadStandardMerkleTree toyKeccak
        (dumpStandard ⟨[hex one32], [⟨[GoVal.goBool true], 0⟩], ["bool".toList]⟩) =
          .ok t2' ∧
      standardRoot t2' =
        standardRoot ⟨[hex one32], [⟨[GoVal.goBool true], 0⟩], ["bool".toList]⟩ ∧
      standardLen t2' =
        standardLen ⟨[hex one32], [⟨[GoVal.goBool true], 0⟩], ["bool".toList]⟩)) :=
  ⟨by decide, by decide,
    C9_dump_load toyKeccak [zero32] true _ (by decide)
      [[GoVal.goBool true]] ["bool".toList] true _ (by decide)⟩
